import Mathlib

/-
A verification development for the watch layer of the etcd `storage`
package (`storage/watchable_store.go`), a revisioned key-value store's
watcher subsystem.  The Go code is shallowly embedded: Go maps become
association lists, watcher pointers become indices into a watcher heap,
channels become an oracle saying whether a non-blocking send succeeds,
and panics become `Option.none`.
-/

set_option maxHeartbeats 1000000

namespace EtcdWatch

/-- A key is an opaque byte string, modelled as a list of bytes. -/
abbrev Key := List Nat

/-- storagepb event type tag. -/
inductive EventType where
  | PUT
  | DELETE
deriving DecidableEq, Repr

/-- storagepb.KeyValue, restricted to the fields the watch layer reads:
the key, the value (`none` models a nil value slice, which marks a delete
in `TxnEnd`), and the mod revision. -/
structure KeyValue where
  key : Key
  value : Option (List Nat)
  modRev : Int
deriving DecidableEq, Repr

/-- storagepb.Event: a type tag and the key-value record. -/
structure Event where
  etype : EventType
  kv : KeyValue
deriving DecidableEq, Repr

/-- The watcher struct: watched key (or prefix) bytes, the prefix flag
(`pfx`, Go field `prefix`), the current revision `cur`, the client-facing
WatchID `id`, and an identifier `ch` for the (possibly shared) outbound
channel.  Watcher identity (the Go pointer) is the index into the store's
watcher heap, not part of this record. -/
structure Watcher where
  key : Key
  pfx : Bool
  cur : Int
  id : Nat
  ch : Nat
deriving DecidableEq, Repr

/-- Default watcher used for out-of-range heap reads (never hit on the
code paths we verify). -/
def dw : Watcher := ⟨[], false, 0, 0, 0⟩

/-- Heap read: the watcher record behind identity (pointer) `w`. -/
def hGet (heap : List Watcher) (w : Nat) : Watcher := heap.getD w dw

/-- WatchResponse: watch id, the batched events, and the revision observed
at send time (`s.Rev()` on the hot path, `currentRev` on the sync path). -/
structure WatchResponse where
  watchId : Nat
  events : List Event
  revision : Int
deriving DecidableEq, Repr

/-- One record of the backend's key bucket: the (main) revision it is
stored under, the marshalled key-value, and the tombstone mark on the
revision key. -/
structure BackendRec where
  rev : Int
  kv : KeyValue
  tomb : Bool
deriving DecidableEq, Repr

/-- The watchableStore state: the watcher heap (index = identity = Go
pointer), the unsynced set, the synced map (association list from key to
bucket of identities), the inner store's current and compacted main
revisions, and the backend key bucket in revision order. -/
structure StoreState where
  watchers : List Watcher
  unsynced : List Nat
  synced : List (Key × List Nat)
  currentRev : Int
  compactRev : Int
  backend : List BackendRec
deriving DecidableEq, Repr

/-! ### Association-list helpers (Go map operations) -/

/-- Go map read `m[k]` on the synced / keyToUnsynced maps. -/
def lookupBucket : List (Key × List Nat) → Key → Option (List Nat)
  | [], _ => none
  | (k', b) :: rest, k => if k' = k then some b else lookupBucket rest k

/-- Go map write `m[k] = b` (entry assumed present). -/
def setBucket : List (Key × List Nat) → Key → List Nat → List (Key × List Nat)
  | [], _, _ => []
  | (k', b') :: rest, k, b =>
    if k' = k then (k', b) :: rest else (k', b') :: setBucket rest k b

/-- Go map delete `delete(m, k)`. -/
def removeKey : List (Key × List Nat) → Key → List (Key × List Nat)
  | [], _ => []
  | (k', b) :: rest, k =>
    if k' = k then removeKey rest k else (k', b) :: removeKey rest k

/-- Go set insert `m[w] = struct{}{}` on a set of watcher identities. -/
def insertW (l : List Nat) (w : Nat) : List Nat :=
  if w ∈ l then l else l ++ [w]

/-- `watcherToEvents[w] = append(watcherToEvents[w], ev)` on the
watcher-to-events accumulator map. -/
def addEvent : List (Nat × List Event) → Nat → Event → List (Nat × List Event)
  | [], w, ev => [(w, [ev])]
  | (w', es) :: rest, w, ev =>
    if w' = w then (w', es ++ [ev]) :: rest else (w', es) :: addEvent rest w ev

/-- Go map read on the watcher-to-events map. -/
def lookupEvents : List (Nat × List Event) → Nat → Option (List Event)
  | [], _ => none
  | (w', es) :: rest, w => if w' = w then some es else lookupEvents rest w

/-! ### Fan-out: newWatcherToEventMap and matchPrefix -/

/-- All byte prefixes `key[:i]` for `i ∈ [0, len(key)]`, in order — the
prefixes enumerated by the inner loop of `newWatcherToEventMap`. -/
def pfxList (k : Key) : List Key :=
  (List.range (k.length + 1)).map fun i => k.take i

/-- matchPrefix: true if `key` has any of `pfxs` as a byte prefix. -/
def matchPfx (key : Key) (pfxs : List Key) : Bool :=
  pfxs.any fun p => p.isPrefixOf key

/-- Innermost loop of `newWatcherToEventMap`: walk one synced bucket found
under prefix length `klen` of the event key, adding `ev` for every watcher
that is on a prefix or whose bucket is the full key. -/
def addBucketEvents (heap : List Watcher) (ev : Event) (klen : Nat) :
    List Nat → List (Nat × List Event) → List (Nat × List Event)
  | [], m => m
  | w :: ws, m =>
    addBucketEvents heap ev klen ws
      (if !(hGet heap w).pfx && klen ≠ ev.kv.key.length then m
       else addEvent m w ev)

/-- Middle loop of `newWatcherToEventMap`: try every prefix of the event
key against the map `sm`. -/
def addPfxEvents (heap : List Watcher) (sm : List (Key × List Nat)) (ev : Event) :
    List Key → List (Nat × List Event) → List (Nat × List Event)
  | [], m => m
  | k :: ks, m =>
    match lookupBucket sm k with
    | none => addPfxEvents heap sm ev ks m
    | some b => addPfxEvents heap sm ev ks (addBucketEvents heap ev k.length b m)

/-- Outer loop of `newWatcherToEventMap`: fold the events into the
accumulator map. -/
def addEvents (heap : List Watcher) (sm : List (Key × List Nat)) :
    List Event → List (Nat × List Event) → List (Nat × List Event)
  | [], m => m
  | ev :: rest, m =>
    addEvents heap sm rest (addPfxEvents heap sm ev (pfxList ev.kv.key) m)

/-- newWatcherToEventMap: builds the map from watcher (identity) to the
events of `evs` it must be notified of, looking each event's key prefixes
up in the watcher map `sm`. -/
def newWatcherToEventMap (heap : List Watcher) (sm : List (Key × List Nat))
    (evs : List Event) : List (Nat × List Event) :=
  addEvents heap sm evs []

/-! ### The notifier (hot path) -/

/-- Mutable state threaded through the notify loops: the watcher heap, the
unsynced set, and the sends performed so far (watcher identity paired with
the WatchResponse pushed on its channel). -/
structure NotifyAcc where
  heap : List Watcher
  unsynced : List Nat
  sends : List (Nat × WatchResponse)
deriving DecidableEq, Repr

/-- Inner loop of `notify` over one synced bucket.  For each watcher with
pending events in `we`: a successful non-blocking send (oracle `ok`) leaves
it in the bucket and records the response at revision `curRev`; a failed
send demotes it — `w.cur = rev`, insert into unsynced, delete from the
bucket.  Returns the surviving bucket members and the updated state. -/
def notifyBucket (we : List (Nat × List Event)) (rev curRev : Int) (ok : Nat → Bool) :
    List Nat → NotifyAcc → List Nat × NotifyAcc
  | [], ns => ([], ns)
  | w :: ws, ns =>
    match lookupEvents we w with
    | none =>
      let (ws', ns') := notifyBucket we rev curRev ok ws ns
      (w :: ws', ns')
    | some es =>
      if ok w then
        let wa := hGet ns.heap w
        let ns1 : NotifyAcc :=
          { ns with sends := ns.sends ++ [(w, ⟨wa.id, es, curRev⟩)] }
        let (ws', ns') := notifyBucket we rev curRev ok ws ns1
        (w :: ws', ns')
      else
        let wa := hGet ns.heap w
        let ns1 : NotifyAcc :=
          { heap := ns.heap.set w { wa with cur := rev },
            unsynced := insertW ns.unsynced w,
            sends := ns.sends }
        notifyBucket we rev curRev ok ws ns1

/-- Outer loop of `notify` over all synced buckets.  Note that a bucket
emptied by demotions is kept in the map (the Go code only does
`delete(wm, w)`, never `delete(s.synced, k)` here). -/
def notifyBuckets (we : List (Nat × List Event)) (rev curRev : Int) (ok : Nat → Bool) :
    List (Key × List Nat) → NotifyAcc → List (Key × List Nat) × NotifyAcc
  | [], ns => ([], ns)
  | (k, b) :: rest, ns =>
    let (b', ns1) := notifyBucket we rev curRev ok b ns
    let (rest', ns2) := notifyBuckets we rev curRev ok rest ns1
    ((k, b') :: rest', ns2)

/-- notify: fan the events out to matching synced watchers (via
`newWatcherToEventMap` on `s.synced`), sending `WatchResponse` at revision
`s.Rev()` (= `currentRev`) and demoting watchers whose channel is full. -/
def notify (st : StoreState) (rev : Int) (evs : List Event) (ok : Nat → Bool) :
    StoreState × List (Nat × WatchResponse) :=
  let we := newWatcherToEventMap st.watchers st.synced evs
  let (synced', ns) :=
    notifyBuckets we rev st.currentRev ok st.synced ⟨st.watchers, st.unsynced, []⟩
  ({ st with watchers := ns.heap, synced := synced', unsynced := ns.unsynced },
   ns.sends)

/-! ### watch and cancel -/

/-- unsafeAddWatcher: put watcher `w` into `synced[k]`; `none` models the
error (and the callers' `log.Panicf`) when the same watcher is already
present.  (The nil-watcher error cannot arise in the embedding: identities
are always backed by the heap.) -/
def unsafeAddWatcher (synced : List (Key × List Nat)) (k : Key) (w : Nat) :
    Option (List (Key × List Nat)) :=
  match lookupBucket synced k with
  | some v => if w ∈ v then none else some (setBucket synced k (v ++ [w]))
  | none => some (synced ++ [(k, [w])])

/-- watch: allocate a fresh watcher (identity = heap length) with
`cur = startRev`; `startRev == 0` inserts it into `synced[key]` (`none`
models the `log.Panicf` on `unsafeAddWatcher` failure), otherwise it goes
into `unsynced`.  Returns the new state and the watcher identity. -/
def watchOp (st : StoreState) (key : Key) (p : Bool) (startRev : Int)
    (id ch : Nat) : Option (StoreState × Nat) :=
  let w := st.watchers.length
  let wa : Watcher := ⟨key, p, startRev, id, ch⟩
  let st1 := { st with watchers := st.watchers ++ [wa] }
  if startRev = 0 then
    match unsafeAddWatcher st1.synced key w with
    | none => none
    | some s' => some ({ st1 with synced := s' }, w)
  else
    some ({ st1 with unsynced := insertW st1.unsynced w }, w)

/-- The cancel closure returned by `watch` for watcher `w` with
`k = string(key)`: if `w` is unsynced, delete it and return; otherwise
delete it from `synced[k]` if present, pruning the bucket when it
empties. -/
def cancelOp (st : StoreState) (w : Nat) (k : Key) : StoreState :=
  if w ∈ st.unsynced then
    { st with unsynced := st.unsynced.erase w }
  else
    match lookupBucket st.synced k with
    | some v =>
      if w ∈ v then
        if v.erase w = [] then { st with synced := removeKey st.synced k }
        else { st with synced := setBucket st.synced k (v.erase w) }
      else st
    | none => st

/-! ### The sync pass (cold path) -/

/-- math.MaxInt64, the initial value of `minRev`. -/
def maxI64 : Int := 9223372036854775807

/-- `keyToUnsynced[k][w] = struct{}{}` (creating the bucket if absent). -/
def addK2U : List (Key × List Nat) → Key → Nat → List (Key × List Nat)
  | [], k, w => [(k, [w])]
  | (k', b) :: rest, k, w =>
    if k' = k then (k', b ++ [w]) :: rest else (k', b) :: addK2U rest k w

/-- Go set insert on the transient prefixes set. -/
def insertKey (l : List Key) (k : Key) : List Key :=
  if k ∈ l then l else l ++ [k]

/-- First loop of `syncWatchers` over the unsynced set: `none` models the
panic when some `w.cur > curRev`; a watcher with `w.cur < compactionRev`
is deleted from unsynced (silently — the TODO in the source); otherwise it
is kept, lowers `minRev`, and is recorded in `keyToUnsynced` (and in
`prefixes` when it is a prefix watcher).  Returns the surviving unsynced
set, `minRev`, `keyToUnsynced` and `prefixes`. -/
def syncPass1 (heap : List Watcher) (curRev compactionRev : Int) :
    List Nat → Int → List (Key × List Nat) → List Key →
    Option (List Nat × Int × List (Key × List Nat) × List Key)
  | [], minRev, k2u, pfxs => some ([], minRev, k2u, pfxs)
  | w :: ws, minRev, k2u, pfxs =>
    if (hGet heap w).cur > curRev then none
    else if (hGet heap w).cur < compactionRev then
      syncPass1 heap curRev compactionRev ws minRev k2u pfxs
    else
      match syncPass1 heap curRev compactionRev ws
          (if minRev ≥ (hGet heap w).cur then (hGet heap w).cur else minRev)
          (addK2U k2u (hGet heap w).key w)
          (if (hGet heap w).pfx then insertKey pfxs (hGet heap w).key else pfxs) with
      | none => none
      | some (kept, m, a, b) => some (w :: kept, m, a, b)

/-- The backend range scan over revisions `[minRev, curRev + 1)` plus the
per-record decode-and-filter loop of `syncWatchers`: a record is kept when
its key is in `keyToUnsynced` or matches a prefix; the tombstone mark
selects DELETE over PUT. -/
def syncEvents (backend : List BackendRec) (minRev curRev : Int)
    (k2u : List (Key × List Nat)) (pfxs : List Key) : List Event :=
  (backend.filter fun r => minRev ≤ r.rev ∧ r.rev < curRev + 1).filterMap
    fun r =>
      if (lookupBucket k2u r.kv.key).isSome || matchPfx r.kv.key pfxs then
        some ⟨if r.tomb then .DELETE else .PUT, r.kv⟩
      else none

/-- Final loop of `syncWatchers` over the watcher-to-events map: a
successful send emits the response at `curRev`, adds the watcher to
`synced[w.key]` (`none` models the `log.Panicf` on `unsafeAddWatcher`
failure) and deletes it from unsynced; on a full channel the watcher is
left unsynced for the next pass. -/
def syncPromote (heap : List Watcher) (curRev : Int) (ok : Nat → Bool) :
    List (Nat × List Event) → List (Key × List Nat) → List Nat →
    List (Nat × WatchResponse) →
    Option (List (Key × List Nat) × List Nat × List (Nat × WatchResponse))
  | [], s, u, out => some (s, u, out)
  | (w, es) :: rest, s, u, out =>
    if ok w then
      let wa := hGet heap w
      match unsafeAddWatcher s wa.key w with
      | none => none
      | some s' =>
        syncPromote heap curRev ok rest s' (u.erase w)
          (out ++ [(w, ⟨wa.id, es, curRev⟩)])
    else
      syncPromote heap curRev ok rest s u out

/-- syncWatchers: one pass of the sync loop.  Returns `none` on either
panic path, otherwise the new state and the responses sent. -/
def syncWatchers (st : StoreState) (ok : Nat → Bool) :
    Option (StoreState × List (Nat × WatchResponse)) :=
  if st.unsynced = [] then some (st, [])
  else
    match syncPass1 st.watchers st.currentRev st.compactRev st.unsynced maxI64 [] [] with
    | none => none
    | some (kept, minRev, k2u, pfxs) =>
      let evs := syncEvents st.backend minRev st.currentRev k2u pfxs
      let we := newWatcherToEventMap st.watchers k2u evs
      match syncPromote st.watchers st.currentRev ok we st.synced kept [] with
      | none => none
      | some (s', u', sends) =>
        some ({ st with synced := s', unsynced := u' }, sends)

/-! ### The mutating facade: Put, DeleteRange, TxnEnd -/

/-- A committed mutation as seen by the facade: the KV changes reported by
the inner store's `getChanges()` and the commit revision it assigned.
`putM` carries exactly one change (the facade panics otherwise, an
invariant the inner store guarantees); `delM`'s change count is its `n`. -/
inductive Mutation where
  | putM (change : KeyValue) (rev : Int)
  | delM (changes : List KeyValue) (rev : Int)
  | txnM (changes : List KeyValue) (rev : Int)
deriving DecidableEq, Repr

/-- The commit revision of a mutation. -/
def Mutation.rev : Mutation → Int
  | .putM _ r => r
  | .delM _ r => r
  | .txnM _ r => r

/-- Result of a mutating facade call: the new state, the responses sent by
the notifier, and the arguments of every `handle` (= notify) invocation
the call performed. -/
structure MutResult where
  st : StoreState
  sends : List (Nat × WatchResponse)
  handleCalls : List (Int × List Event)
deriving Repr

/-- The event batch a mutation synthesizes from its changes: PUT for
`Put`; DELETE for each `DeleteRange` change; for `TxnEnd`, DELETE when the
change's value is nil and PUT otherwise. -/
def Mutation.events : Mutation → List Event
  | .putM c _ => [⟨.PUT, c⟩]
  | .delM cs _ => cs.map fun c => ⟨.DELETE, c⟩
  | .txnM cs _ =>
    cs.map fun c => ⟨if c.value = none then .DELETE else .PUT, c⟩

/-- Commit a mutation through the inner store (modelled from the spec:
the store stamps the batch at revision `rev`, advances `currentRev` to it
and appends the records to the backend's key bucket), then run the facade
code: `DeleteRange` with `n == 0` and `TxnEnd` with no changes return
without notifying; otherwise `handle(rev, evs)` runs the notifier once
under the same critical section. -/
def execMutation (st : StoreState) (m : Mutation) (ok : Nat → Bool) : MutResult :=
  match m with
  | .putM c rev =>
    let st1 := { st with currentRev := rev,
                         backend := st.backend ++ [⟨rev, c, false⟩] }
    let evs := Mutation.events (.putM c rev)
    let (st2, sends) := notify st1 rev evs ok
    ⟨st2, sends, [(rev, evs)]⟩
  | .delM cs rev =>
    if cs = [] then ⟨st, [], []⟩
    else
      let st1 := { st with currentRev := rev,
                           backend := st.backend ++ cs.map fun c => ⟨rev, c, true⟩ }
      let evs := Mutation.events (.delM cs rev)
      let (st2, sends) := notify st1 rev evs ok
      ⟨st2, sends, [(rev, evs)]⟩
  | .txnM cs rev =>
    if cs = [] then ⟨st, [], []⟩
    else
      let st1 := { st with currentRev := rev,
                           backend := st.backend ++
                             cs.map fun c => ⟨rev, c, c.value = none⟩ }
      let evs := Mutation.events (.txnM cs rev)
      let (st2, sends) := notify st1 st1.currentRev evs ok
      ⟨st2, sends, [(st1.currentRev, evs)]⟩

/-! ### Reachability -/

/-- The state of a freshly created watchableStore over an empty backend.
The inner store's first assigned revision is 2 (its current revision
starts at 1), matching the spec's end-to-end scenarios. -/
def initState : StoreState := ⟨[], [], [], 1, 0, []⟩

/-- One step of the watch layer: a watcher registration, a cancel-handle
invocation, a committed mutation (which runs the notifier), or one pass of
the sync loop.  Mutations commit at the next main revision.  Steps whose
Go code panics (`none` results) do not produce a state. -/
inductive Step : StoreState → StoreState → Prop where
  | watchS (st st' : StoreState) (key : Key) (p : Bool) (startRev : Int)
      (id ch w : Nat) (h : watchOp st key p startRev id ch = some (st', w)) :
      Step st st'
  | cancelS (st : StoreState) (w : Nat) (k : Key) : Step st (cancelOp st w k)
  | mutS (st : StoreState) (m : Mutation) (ok : Nat → Bool)
      (hrev : m.rev = st.currentRev + 1) : Step st (execMutation st m ok).st
  | syncS (st st' : StoreState) (ok : Nat → Bool)
      (sends : List (Nat × WatchResponse))
      (h : syncWatchers st ok = some (st', sends)) : Step st st'

/-- States reachable from a fresh store by any sequence of operations. -/
def Reachable (st : StoreState) : Prop :=
  Relation.ReflTransGen Step initState st

/-! ### Well-formedness -/

/-- Registry well-formedness of a watcher map: distinct keys, every bucket
member is a heap index, buckets are duplicate-free, and every watcher sits
in the bucket of its own key. -/
abbrev WFMap (heap : List Watcher) (sm : List (Key × List Nat)) : Prop :=
  (sm.map Prod.fst).Nodup ∧
  (∀ kb ∈ sm, ∀ w ∈ kb.2, (hGet heap w).key = kb.1) ∧
  (∀ kb ∈ sm, kb.2.Nodup) ∧
  (∀ kb ∈ sm, ∀ w ∈ kb.2, w < heap.length)

/-- State well-formedness: the synced map is well-formed, the unsynced set
is a duplicate-free set of heap indices, and the partitions are disjoint. -/
abbrev WF (st : StoreState) : Prop :=
  WFMap st.watchers st.synced ∧
  st.unsynced.Nodup ∧
  (∀ w ∈ st.unsynced, w < st.watchers.length) ∧
  (∀ w ∈ st.unsynced, ∀ kb ∈ st.synced, w ∉ kb.2)

/-! ### Matching, stated from the spec's words, for comparison with the
code's fan-out -/

/-- The spec's matching rule: watcher `wa` is notified of key `k` when
`wa.key == k` exactly, or `wa` is a prefix watcher and `wa.key` is a byte
prefix of `k`. -/
def wMatch (wa : Watcher) (k : Key) : Bool :=
  wa.key == k || (wa.pfx && wa.key.isPrefixOf k)

/-- Bool membership of watcher `w` in the bucket of key `k` of map `sm`. -/
def inBucket (sm : List (Key × List Nat)) (k : Key) (w : Nat) : Bool :=
  ((lookupBucket sm k).getD []).contains w

/-- Append events to an optional accumulator entry the way repeated
`addEvent` does: no entry is created for an empty batch. -/
def oappend (o : Option (List Event)) (es : List Event) : Option (List Event) :=
  match es with
  | [] => o
  | _ :: _ => some (o.getD [] ++ es)

/-! ### Lemmas: association-list helpers -/

theorem lookupEvents_addEvent (m : List (Nat × List Event)) (w' : Nat) (ev : Event)
    (w : Nat) :
    lookupEvents (addEvent m w' ev) w =
      if w' = w then some ((lookupEvents m w').getD [] ++ [ev])
      else lookupEvents m w := by
  induction m with
  | nil => by_cases h : w' = w <;> simp [addEvent, lookupEvents, h]
  | cons p rest ih =>
    obtain ⟨w'', es⟩ := p
    by_cases h1 : w'' = w'
    · subst h1
      by_cases h2 : w'' = w <;> simp [addEvent, lookupEvents, h2]
    · by_cases h2 : w'' = w
      · have hw : w' ≠ w := fun h => h1 (h2.trans h.symm)
        have hw' : w ≠ w' := fun h => hw h.symm
        simp [addEvent, lookupEvents, h1, h2, hw, hw']
      · simp [addEvent, lookupEvents, h1, h2, ih]

theorem lookupBucket_mem {sm : List (Key × List Nat)} {k : Key} {b : List Nat}
    (h : lookupBucket sm k = some b) : (k, b) ∈ sm := by
  induction sm with
  | nil => simp [lookupBucket] at h
  | cons p rest ih =>
    obtain ⟨k', b'⟩ := p
    by_cases hk : k' = k
    · subst hk
      simp [lookupBucket] at h
      simp [h]
    · simp [lookupBucket, hk] at h
      simp [ih h]

theorem mem_lookupBucket {sm : List (Key × List Nat)} {k : Key} {b : List Nat}
    (hnd : (sm.map Prod.fst).Nodup) (h : (k, b) ∈ sm) :
    lookupBucket sm k = some b := by
  induction sm with
  | nil => simp at h
  | cons p rest ih =>
    obtain ⟨k', b'⟩ := p
    rw [List.map_cons] at hnd
    have hnd1 := List.nodup_cons.mp hnd
    rcases List.mem_cons.mp h with h | h
    · have h1 : k' = k := (congrArg Prod.fst h).symm
      have h2 : b' = b := (congrArg Prod.snd h).symm
      simp [lookupBucket, h1, h2]
    · have hk : k' ≠ k := by
        intro he
        apply hnd1.1
        exact List.mem_map.mpr ⟨(k, b), h, he.symm⟩
      simp [lookupBucket, hk, ih hnd1.2 h]

theorem inBucket_iff {heap : List Watcher} {sm : List (Key × List Nat)} {w : Nat}
    (hnd : (sm.map Prod.fst).Nodup)
    (hk : ∀ kb ∈ sm, ∀ v ∈ kb.2, (hGet heap v).key = kb.1) :
    inBucket sm (hGet heap w).key w = true ↔ ∃ kb ∈ sm, w ∈ kb.2 := by
  constructor
  · intro h
    unfold inBucket at h
    cases hb : lookupBucket sm (hGet heap w).key with
    | none => rw [hb] at h; simp at h
    | some b =>
      rw [hb] at h
      simp at h
      exact ⟨_, lookupBucket_mem hb, h⟩
  · rintro ⟨kb, hkb, hw⟩
    have hkey := hk kb hkb w hw
    have : lookupBucket sm kb.1 = some kb.2 := mem_lookupBucket hnd hkb
    unfold inBucket
    rw [hkey, this]
    simpa using hw

theorem mem_keys_iff_lookupEvents {m : List (Nat × List Event)} {w : Nat} :
    w ∈ m.map Prod.fst ↔ (lookupEvents m w).isSome := by
  induction m with
  | nil => simp [lookupEvents]
  | cons p rest ih =>
    obtain ⟨w', es⟩ := p
    by_cases h : w' = w
    · subst h; simp [lookupEvents]
    · have hne : w ≠ w' := fun he => h he.symm
      simp [lookupEvents, h, ih, hne]

theorem oappend_oappend (o : Option (List Event)) (es es' : List Event) :
    oappend (oappend o es) es' = oappend o (es ++ es') := by
  cases es with
  | nil => simp [oappend]
  | cons e es =>
    cases es' with
    | nil => simp [oappend]
    | cons e' es' => simp [oappend]

/-! ### Lemmas: pfxList -/

theorem pfxList_mem {k key : Key} : k ∈ pfxList key ↔ k <+: key := by
  constructor
  · intro h
    simp [pfxList] at h
    obtain ⟨i, _, rfl⟩ := h
    exact List.take_prefix i key
  · intro h
    simp [pfxList]
    refine ⟨k.length, Nat.lt_succ_of_le h.length_le, ?_⟩
    exact (List.prefix_iff_eq_take.mp h).symm

theorem pfxList_nodup (key : Key) : (pfxList key).Nodup := by
  unfold pfxList
  refine List.Nodup.map_on ?_ (List.nodup_range _)
  intro i hi j hj hij
  simp [List.mem_range, Nat.lt_succ_iff] at hi hj
  have := congrArg List.length hij
  simpa [List.length_take, Nat.min_eq_left hi, Nat.min_eq_left hj] using this

/-! ### Characterization of the fan-out -/

theorem addBucketEvents_cons (heap : List Watcher) (ev : Event) (klen : Nat)
    (v : Nat) (vs : List Nat) (m : List (Nat × List Event)) :
    addBucketEvents heap ev klen (v :: vs) m =
      addBucketEvents heap ev klen vs
        (if !(hGet heap v).pfx && klen ≠ ev.kv.key.length then m
         else addEvent m v ev) := rfl

theorem lookupEvents_addBucketEvents_notMem {heap : List Watcher} {ev : Event}
    {klen : Nat} {b : List Nat} {m : List (Nat × List Event)} {w : Nat}
    (h : w ∉ b) :
    lookupEvents (addBucketEvents heap ev klen b m) w = lookupEvents m w := by
  induction b generalizing m with
  | nil => simp [addBucketEvents]
  | cons v vs ih =>
    have hv : v ≠ w := fun he => h (he ▸ List.mem_cons_self v vs)
    have hvs : w ∉ vs := fun he => h (List.mem_cons_of_mem v he)
    rw [addBucketEvents_cons, ih hvs]
    split
    · rfl
    · rw [lookupEvents_addEvent, if_neg hv]

theorem lookupEvents_addBucketEvents {heap : List Watcher} {ev : Event}
    {klen : Nat} {b : List Nat} {m : List (Nat × List Event)} {w : Nat}
    (hnd : b.Nodup) :
    lookupEvents (addBucketEvents heap ev klen b m) w =
      if w ∈ b ∧ ((hGet heap w).pfx = true ∨ klen = ev.kv.key.length)
      then some ((lookupEvents m w).getD [] ++ [ev])
      else lookupEvents m w := by
  induction b generalizing m with
  | nil => simp [addBucketEvents]
  | cons v vs ih =>
    have hnds := List.nodup_cons.mp hnd
    rw [addBucketEvents_cons]
    by_cases hv : v = w
    · subst hv
      have hnot : v ∉ vs := hnds.1
      rw [lookupEvents_addBucketEvents_notMem hnot]
      by_cases hc : (hGet heap v).pfx = true ∨ klen = ev.kv.key.length
      · have hcond : ¬(!(hGet heap v).pfx && decide (klen ≠ ev.kv.key.length)) = true := by
          intro habs
          have hparts := (Bool.and_eq_true _ _).mp habs
          rcases hc with hc | hc
          · rw [hc] at hparts
            exact absurd hparts.1 (by decide)
          · exact absurd (of_decide_eq_true hparts.2) (fun h => h hc)
        rw [if_neg hcond, lookupEvents_addEvent, if_pos rfl,
          if_pos ⟨List.mem_cons_self v vs, hc⟩]
      · have h1 : (hGet heap v).pfx = false := by
          rcases hp : (hGet heap v).pfx with _ | _
          · rfl
          · exact absurd (Or.inl hp) hc
        have h2 : klen ≠ ev.kv.key.length := fun he => hc (Or.inr he)
        have hcond : (!(hGet heap v).pfx && decide (klen ≠ ev.kv.key.length)) = true := by
          rw [h1]
          simp [h2]
        rw [if_pos hcond, if_neg (fun hcc => hc hcc.2)]
    · have hvne : w ≠ v := fun he => hv he.symm
      have hmem : (w ∈ v :: vs) = (w ∈ vs) := by simp [hvne]
      by_cases hc2 : (!(hGet heap v).pfx && decide (klen ≠ ev.kv.key.length)) = true
      · rw [if_pos hc2, ih hnds.2]
        simp only [hmem]
      · rw [if_neg hc2, ih hnds.2, lookupEvents_addEvent, if_neg hv]
        simp only [hmem]

theorem lookupEvents_addPfxEvents_notMem {heap : List Watcher}
    {sm : List (Key × List Nat)} {ev : Event} {ks : List Key}
    {m : List (Nat × List Event)} {w : Nat} {k0 : Key}
    (hk : ∀ kb ∈ sm, w ∈ kb.2 → kb.1 = k0) (hout : k0 ∉ ks) :
    lookupEvents (addPfxEvents heap sm ev ks m) w = lookupEvents m w := by
  induction ks generalizing m with
  | nil => simp [addPfxEvents]
  | cons k ks ih =>
    have hout' : k0 ∉ ks := fun h => hout (List.mem_cons_of_mem k h)
    have hkk : k ≠ k0 := fun he => hout (he ▸ List.mem_cons_self k ks)
    unfold addPfxEvents
    cases hb : lookupBucket sm k with
    | none => exact ih hout'
    | some b =>
      rw [ih hout']
      have hwb : w ∉ b := fun hwb =>
        hkk (hk (k, b) (lookupBucket_mem hb) hwb)
      exact lookupEvents_addBucketEvents_notMem hwb

theorem lookupEvents_addPfxEvents {heap : List Watcher}
    {sm : List (Key × List Nat)} {ev : Event} {ks : List Key}
    {m : List (Nat × List Event)} {w : Nat}
    (hk : ∀ kb ∈ sm, w ∈ kb.2 → kb.1 = (hGet heap w).key)
    (hbnd : ∀ kb ∈ sm, kb.2.Nodup) (hks : ks.Nodup) :
    lookupEvents (addPfxEvents heap sm ev ks m) w =
      if (hGet heap w).key ∈ ks ∧
          inBucket sm (hGet heap w).key w = true ∧
          ((hGet heap w).pfx = true ∨
            (hGet heap w).key.length = ev.kv.key.length)
      then some ((lookupEvents m w).getD [] ++ [ev])
      else lookupEvents m w := by
  induction ks generalizing m with
  | nil => simp [addPfxEvents]
  | cons k ks ih =>
    have hksnd := List.nodup_cons.mp hks
    by_cases hkk : k = (hGet heap w).key
    · subst hkk
      have hout : (hGet heap w).key ∉ ks := hksnd.1
      unfold addPfxEvents
      cases hb : lookupBucket sm (hGet heap w).key with
      | none =>
        rw [lookupEvents_addPfxEvents_notMem hk hout]
        rw [if_neg]
        rintro ⟨-, hin, -⟩
        unfold inBucket at hin
        rw [hb] at hin
        simp at hin
      | some b =>
        rw [lookupEvents_addPfxEvents_notMem hk hout]
        rw [lookupEvents_addBucketEvents (hbnd _ (lookupBucket_mem hb))]
        have hin : inBucket sm (hGet heap w).key w = b.contains w := by
          unfold inBucket
          rw [hb]
          rfl
        by_cases hwb : w ∈ b
        · have hin' : inBucket sm (hGet heap w).key w = true := by
            rw [hin]
            simpa using hwb
          by_cases hc : (hGet heap w).pfx = true ∨
              (hGet heap w).key.length = ev.kv.key.length
          · rw [if_pos ⟨hwb, hc⟩,
              if_pos ⟨List.mem_cons_self (hGet heap w).key ks, hin', hc⟩]
          · rw [if_neg (fun h => hc h.2), if_neg (fun h => hc h.2.2)]
        · have hin' : inBucket sm (hGet heap w).key w = false := by
            rw [hin]
            simp [hwb]
          rw [if_neg (fun h => hwb h.1),
            if_neg (fun h => by rw [h.2.1] at hin'; simp at hin')]
    · unfold addPfxEvents
      have hmem : ((hGet heap w).key ∈ k :: ks) = ((hGet heap w).key ∈ ks) := by
        simp only [List.mem_cons]
        apply propext
        constructor
        · rintro (h | h)
          · exact absurd h.symm hkk
          · exact h
        · exact Or.inr
      cases hb : lookupBucket sm k with
      | none =>
        rw [ih hksnd.2]
        simp only [hmem]
      | some b =>
        have hwb : w ∉ b := fun hwb => hkk (hk (k, b) (lookupBucket_mem hb) hwb)
        rw [ih hksnd.2, lookupEvents_addBucketEvents_notMem hwb]
        simp only [hmem]

theorem cond_iff_wMatch (wa : Watcher) (key : Key) :
    (wa.key ∈ pfxList key ∧ (wa.pfx = true ∨ wa.key.length = key.length)) ↔
      wMatch wa key = true := by
  rw [pfxList_mem]
  unfold wMatch
  rw [Bool.or_eq_true, Bool.and_eq_true, beq_iff_eq, List.isPrefixOf_iff_prefix]
  constructor
  · rintro ⟨hp, hc | hc⟩
    · exact Or.inr ⟨hc, hp⟩
    · exact Or.inl (hp.eq_of_length hc)
  · rintro (h | ⟨hpfx, hp⟩)
    · subst h
      exact ⟨List.prefix_refl _, Or.inr rfl⟩
    · exact ⟨hp, Or.inl hpfx⟩

theorem lookupEvents_addPfxEvents_full {heap : List Watcher}
    {sm : List (Key × List Nat)} {ev : Event} {m : List (Nat × List Event)}
    {w : Nat} (hk : ∀ kb ∈ sm, w ∈ kb.2 → kb.1 = (hGet heap w).key)
    (hbnd : ∀ kb ∈ sm, kb.2.Nodup) :
    lookupEvents (addPfxEvents heap sm ev (pfxList ev.kv.key) m) w =
      if inBucket sm (hGet heap w).key w = true ∧
          wMatch (hGet heap w) ev.kv.key = true
      then some ((lookupEvents m w).getD [] ++ [ev])
      else lookupEvents m w := by
  rw [lookupEvents_addPfxEvents hk hbnd (pfxList_nodup _)]
  by_cases h : inBucket sm (hGet heap w).key w = true ∧
      wMatch (hGet heap w) ev.kv.key = true
  · have hcond := (cond_iff_wMatch (hGet heap w) ev.kv.key).mpr h.2
    rw [if_pos ⟨hcond.1, h.1, hcond.2⟩, if_pos h]
  · rw [if_neg h, if_neg]
    rintro ⟨h1, h2, h3⟩
    exact h ⟨h2, (cond_iff_wMatch (hGet heap w) ev.kv.key).mp ⟨h1, h3⟩⟩

theorem lookupEvents_addEvents {heap : List Watcher}
    {sm : List (Key × List Nat)} {evs : List Event} {m : List (Nat × List Event)}
    {w : Nat} (hk : ∀ kb ∈ sm, w ∈ kb.2 → kb.1 = (hGet heap w).key)
    (hbnd : ∀ kb ∈ sm, kb.2.Nodup)
    (hb : inBucket sm (hGet heap w).key w = true) :
    lookupEvents (addEvents heap sm evs m) w =
      oappend (lookupEvents m w)
        (evs.filter fun ev => wMatch (hGet heap w) ev.kv.key) := by
  induction evs generalizing m with
  | nil => simp [addEvents, oappend]
  | cons ev rest ih =>
    unfold addEvents
    rw [ih, lookupEvents_addPfxEvents_full hk hbnd]
    by_cases hm : wMatch (hGet heap w) ev.kv.key = true
    · have hf : List.filter (fun e => wMatch (hGet heap w) e.kv.key) (ev :: rest) =
          ev :: List.filter (fun e => wMatch (hGet heap w) e.kv.key) rest := by
        simp [List.filter_cons, hm]
      rw [if_pos ⟨hb, hm⟩, hf]
      have : some ((lookupEvents m w).getD [] ++ [ev]) =
          oappend (lookupEvents m w) [ev] := by
        simp [oappend]
      rw [this, oappend_oappend]
      rfl
    · have hf : List.filter (fun e => wMatch (hGet heap w) e.kv.key) (ev :: rest) =
          List.filter (fun e => wMatch (hGet heap w) e.kv.key) rest := by
        simp [List.filter_cons, hm]
      rw [if_neg (fun hc => hm hc.2), hf]

theorem lookupEvents_addEvents_notMem {heap : List Watcher}
    {sm : List (Key × List Nat)} {evs : List Event} {m : List (Nat × List Event)}
    {w : Nat} (hb : inBucket sm (hGet heap w).key w = false)
    (hk : ∀ kb ∈ sm, w ∈ kb.2 → kb.1 = (hGet heap w).key)
    (hbnd : ∀ kb ∈ sm, kb.2.Nodup) :
    lookupEvents (addEvents heap sm evs m) w = lookupEvents m w := by
  induction evs generalizing m with
  | nil => simp [addEvents]
  | cons ev rest ih =>
    unfold addEvents
    rw [ih, lookupEvents_addPfxEvents_full hk hbnd, if_neg]
    rintro ⟨h1, -⟩
    rw [hb] at h1
    simp at h1

theorem lookupEvents_newWatcherToEventMap {heap : List Watcher}
    {sm : List (Key × List Nat)} {evs : List Event} {w : Nat}
    (hk : ∀ kb ∈ sm, w ∈ kb.2 → kb.1 = (hGet heap w).key)
    (hbnd : ∀ kb ∈ sm, kb.2.Nodup) :
    lookupEvents (newWatcherToEventMap heap sm evs) w =
      if inBucket sm (hGet heap w).key w = true then
        (if (evs.filter fun ev => wMatch (hGet heap w) ev.kv.key) = [] then none
         else some (evs.filter fun ev => wMatch (hGet heap w) ev.kv.key))
      else none := by
  unfold newWatcherToEventMap
  by_cases hb : inBucket sm (hGet heap w).key w = true
  · rw [lookupEvents_addEvents hk hbnd hb, if_pos hb]
    cases hf : evs.filter fun ev => wMatch (hGet heap w) ev.kv.key with
    | nil => simp [lookupEvents, oappend]
    | cons e es => simp [lookupEvents, oappend]
  · have hb' : inBucket sm (hGet heap w).key w = false :=
      Bool.not_eq_true _ ▸ hb
    rw [lookupEvents_addEvents_notMem hb' hk hbnd, if_neg hb]
    rfl

theorem wMatch_iff (wa : Watcher) (k : Key) :
    wMatch wa k = true ↔ (wa.key = k ∨ (wa.pfx = true ∧ wa.key <+: k)) := by
  unfold wMatch
  rw [Bool.or_eq_true, Bool.and_eq_true, beq_iff_eq, List.isPrefixOf_iff_prefix]

/-- C2: a watcher `w` is included in the fan-out map that
`newWatcherToEventMap` builds from a (well-formed) registry `sm` and an
event list `evs` — the function used both by the hot-path `notify` on
`s.synced` and by the sync-pass on `keyToUnsynced` — if and only if `w`
lies in some bucket of the registry and there is an event whose key
either equals `w`'s key exactly, or, for a prefix watcher, has `w`'s key
as a byte prefix.  Since the empty list is a prefix of every key, a
watcher with the empty prefix matches every event. -/
theorem fanout_mem_iff {heap : List Watcher} {sm : List (Key × List Nat)}
    {evs : List Event} {w : Nat} (hwf : WFMap heap sm) :
    w ∈ (newWatcherToEventMap heap sm evs).map Prod.fst ↔
      ((∃ kb ∈ sm, w ∈ kb.2) ∧
       ∃ ev ∈ evs, (hGet heap w).key = ev.kv.key ∨
         ((hGet heap w).pfx = true ∧ (hGet heap w).key <+: ev.kv.key)) := by
  obtain ⟨hnd, hkeyed, hbnd, hlen⟩ := hwf
  have hk : ∀ kb ∈ sm, w ∈ kb.2 → kb.1 = (hGet heap w).key := fun kb hkb hw =>
    (hkeyed kb hkb w hw).symm
  rw [mem_keys_iff_lookupEvents, lookupEvents_newWatcherToEventMap hk hbnd]
  by_cases hex : ∃ kb ∈ sm, w ∈ kb.2
  · have hbt : inBucket sm (hGet heap w).key w = true :=
      (inBucket_iff hnd hkeyed).mpr hex
    rw [if_pos hbt]
    cases hf : evs.filter fun ev => wMatch (hGet heap w) ev.kv.key with
    | nil =>
      simp only [if_pos rfl, Option.isSome_none]
      constructor
      · intro h; simp at h
      · rintro ⟨-, ev, hev, hm⟩
        have := List.filter_eq_nil_iff.mp hf ev hev
        exact absurd ((wMatch_iff _ _).mpr hm) this
    | cons e es =>
      rw [if_neg (by simp [hf])]
      simp only [Option.isSome_some, true_iff]
      refine ⟨hex, ?_⟩
      have he : e ∈ evs.filter fun ev => wMatch (hGet heap w) ev.kv.key := by
        rw [hf]; exact List.mem_cons_self e es
      obtain ⟨hmem, hmatch⟩ := List.mem_filter.mp he
      exact ⟨e, hmem, (wMatch_iff _ _).mp hmatch⟩
  · have hbf : ¬inBucket sm (hGet heap w).key w = true := fun h =>
      hex ((inBucket_iff hnd hkeyed).mp h)
    rw [if_neg hbf]
    simp only [Option.isSome_none]
    constructor
    · intro h; simp at h
    · rintro ⟨h, -⟩; exact absurd h hex

/-- Witness for `fanout_mem_iff` at a one-watcher registry and a
one-event list. -/
theorem fanout_mem_iff_witness :
    0 ∈ (newWatcherToEventMap [⟨[97], false, 0, 1, 0⟩] [([97], [0])]
        [⟨.PUT, ⟨[97], some [49], 2⟩⟩]).map Prod.fst :=
  (fanout_mem_iff (by decide)).mpr
    ⟨⟨([97], [0]), by decide, by decide⟩,
     ⟨⟨.PUT, ⟨[97], some [49], 2⟩⟩, by decide, Or.inl (by decide)⟩⟩

/-! ### Heap and set-insert helper lemmas -/

theorem hGet_set_ne (heap : List Watcher) (u : Nat) (x : Watcher) (v : Nat)
    (h : u ≠ v) : hGet (heap.set u x) v = hGet heap v := by
  unfold hGet
  unfold List.getD
  rw [List.get?_set_ne _ _ h]

theorem hGet_set_self (heap : List Watcher) (u : Nat) (x : Watcher)
    (h : u < heap.length) : hGet (heap.set u x) u = x := by
  unfold hGet
  unfold List.getD
  rw [List.get?_set_eq_of_lt _ h]
  rfl

theorem mem_insertW {l : List Nat} {w v : Nat} :
    v ∈ insertW l w ↔ v ∈ l ∨ v = w := by
  unfold insertW
  split
  · constructor
    · exact Or.inl
    · rintro (h | rfl)
      · exact h
      · assumption
  · simp

theorem insertW_nodup {l : List Nat} {w : Nat} (h : l.Nodup) :
    (insertW l w).Nodup := by
  unfold insertW
  split
  · exact h
  · rw [List.nodup_append]
    exact ⟨h, List.nodup_singleton w, by simpa using fun hw => by simp_all⟩

/-- The sends addressed to watcher `w` in a send list. -/
def sendsFor (l : List (Nat × WatchResponse)) (w : Nat) :
    List (Nat × WatchResponse) :=
  l.filter fun p => p.1 == w

theorem sendsFor_append (l l' : List (Nat × WatchResponse)) (w : Nat) :
    sendsFor (l ++ l') w = sendsFor l w ++ sendsFor l' w := by
  unfold sendsFor
  rw [List.filter_append]

theorem sendsFor_single_self (w : Nat) (r : WatchResponse) :
    sendsFor [(w, r)] w = [(w, r)] := by
  simp [sendsFor]

theorem sendsFor_single_ne (v w : Nat) (r : WatchResponse) (h : v ≠ w) :
    sendsFor [(v, r)] w = [] := by
  simp [sendsFor, h]

/-! ### Effects of the notify loops -/

theorem notifyBucket_cons_none {we : List (Nat × List Event)} {rev curRev : Int}
    {ok : Nat → Bool} {u : Nat} {us : List Nat} {ns : NotifyAcc}
    (hlk : lookupEvents we u = none) :
    notifyBucket we rev curRev ok (u :: us) ns =
      (u :: (notifyBucket we rev curRev ok us ns).1,
       (notifyBucket we rev curRev ok us ns).2) := by
  conv_lhs => unfold notifyBucket
  rw [hlk]

theorem notifyBucket_cons_ok {we : List (Nat × List Event)} {rev curRev : Int}
    {ok : Nat → Bool} {u : Nat} {us : List Nat} {ns : NotifyAcc} {es : List Event}
    (hlk : lookupEvents we u = some es) (hok : ok u = true) :
    notifyBucket we rev curRev ok (u :: us) ns =
      (u :: (notifyBucket we rev curRev ok us
          { ns with sends :=
              ns.sends ++ [(u, ⟨(hGet ns.heap u).id, es, curRev⟩)] }).1,
       (notifyBucket we rev curRev ok us
          { ns with sends :=
              ns.sends ++ [(u, ⟨(hGet ns.heap u).id, es, curRev⟩)] }).2) := by
  conv_lhs => unfold notifyBucket
  rw [hlk, hok]
  rfl

theorem notifyBucket_cons_fail {we : List (Nat × List Event)} {rev curRev : Int}
    {ok : Nat → Bool} {u : Nat} {us : List Nat} {ns : NotifyAcc} {es : List Event}
    (hlk : lookupEvents we u = some es) (hok : ok u = false) :
    notifyBucket we rev curRev ok (u :: us) ns =
      notifyBucket we rev curRev ok us
        { heap := ns.heap.set u { hGet ns.heap u with cur := rev },
          unsynced := insertW ns.unsynced u,
          sends := ns.sends } := by
  conv_lhs => unfold notifyBucket
  rw [hlk, hok]
  rfl

theorem notifyBucket_cons_none_fst {we : List (Nat × List Event)} {rev curRev : Int}
    {ok : Nat → Bool} {u : Nat} {us : List Nat} {ns : NotifyAcc}
    (hlk : lookupEvents we u = none) :
    (notifyBucket we rev curRev ok (u :: us) ns).1 =
      u :: (notifyBucket we rev curRev ok us ns).1 := by
  rw [notifyBucket_cons_none hlk]

theorem notifyBucket_cons_none_snd {we : List (Nat × List Event)} {rev curRev : Int}
    {ok : Nat → Bool} {u : Nat} {us : List Nat} {ns : NotifyAcc}
    (hlk : lookupEvents we u = none) :
    (notifyBucket we rev curRev ok (u :: us) ns).2 =
      (notifyBucket we rev curRev ok us ns).2 := by
  rw [notifyBucket_cons_none hlk]

theorem notifyBucket_cons_ok_fst {we : List (Nat × List Event)} {rev curRev : Int}
    {ok : Nat → Bool} {u : Nat} {us : List Nat} {ns : NotifyAcc} {es : List Event}
    (hlk : lookupEvents we u = some es) (hok : ok u = true) :
    (notifyBucket we rev curRev ok (u :: us) ns).1 =
      u :: (notifyBucket we rev curRev ok us
        { ns with sends :=
            ns.sends ++ [(u, ⟨(hGet ns.heap u).id, es, curRev⟩)] }).1 := by
  rw [notifyBucket_cons_ok hlk hok]

theorem notifyBucket_cons_ok_snd {we : List (Nat × List Event)} {rev curRev : Int}
    {ok : Nat → Bool} {u : Nat} {us : List Nat} {ns : NotifyAcc} {es : List Event}
    (hlk : lookupEvents we u = some es) (hok : ok u = true) :
    (notifyBucket we rev curRev ok (u :: us) ns).2 =
      (notifyBucket we rev curRev ok us
        { ns with sends :=
            ns.sends ++ [(u, ⟨(hGet ns.heap u).id, es, curRev⟩)] }).2 := by
  rw [notifyBucket_cons_ok hlk hok]

theorem notifyBucket_effects (we : List (Nat × List Event)) (rev curRev : Int)
    (ok : Nat → Bool) (b : List Nat) (ns : NotifyAcc) :
    ((notifyBucket we rev curRev ok b ns).2.heap.length = ns.heap.length) ∧
    (∀ v, v ∉ b →
      hGet (notifyBucket we rev curRev ok b ns).2.heap v = hGet ns.heap v) ∧
    (∀ v ∈ ns.unsynced, v ∈ (notifyBucket we rev curRev ok b ns).2.unsynced) ∧
    (∀ v ∈ (notifyBucket we rev curRev ok b ns).2.unsynced,
      v ∈ ns.unsynced ∨ v ∈ b) ∧
    (∀ v, v ∉ b →
      sendsFor (notifyBucket we rev curRev ok b ns).2.sends v =
        sendsFor ns.sends v) ∧
    (∀ v ∈ (notifyBucket we rev curRev ok b ns).1, v ∈ b) ∧
    (ns.unsynced.Nodup → (notifyBucket we rev curRev ok b ns).2.unsynced.Nodup) := by
  induction b generalizing ns with
  | nil =>
    refine ⟨rfl, fun v _ => rfl, fun v h => h, fun v h => Or.inl h,
      fun v _ => rfl, fun v h => absurd h (by simp [notifyBucket]), fun h => h⟩
  | cons u us ih =>
    cases hlk : lookupEvents we u with
    | none =>
      rw [notifyBucket_cons_none hlk]
      obtain ⟨ih1, ih2, ih3, ih4, ih5, ih6, ih7⟩ := ih ns
      refine ⟨ih1, fun v hv => ih2 v (fun h => hv (List.mem_cons_of_mem u h)),
        ih3, fun v hv => (ih4 v hv).imp_right (List.mem_cons_of_mem u),
        fun v hv => ih5 v (fun h => hv (List.mem_cons_of_mem u h)), ?_, ih7⟩
      intro v hv
      rcases List.mem_cons.mp hv with rfl | hv
      · exact List.mem_cons_self v us
      · exact List.mem_cons_of_mem u (ih6 v hv)
    | some es =>
      by_cases hok : ok u = true
      · rw [notifyBucket_cons_ok hlk hok]
        obtain ⟨ih1, ih2, ih3, ih4, ih5, ih6, ih7⟩ :=
          ih { ns with sends := ns.sends ++ [(u, ⟨(hGet ns.heap u).id, es, curRev⟩)] }
        refine ⟨ih1, fun v hv => ih2 v (fun h => hv (List.mem_cons_of_mem u h)),
          ih3, fun v hv => (ih4 v hv).imp_right (List.mem_cons_of_mem u),
          ?_, ?_, ih7⟩
        · intro v hv
          have hvu : v ≠ u := fun he => hv (he ▸ List.mem_cons_self u us)
          rw [ih5 v (fun h => hv (List.mem_cons_of_mem u h))]
          show sendsFor (ns.sends ++ [(u, _)]) v = sendsFor ns.sends v
          rw [sendsFor_append, sendsFor_single_ne u v _ (fun he => hvu he.symm),
            List.append_nil]
        · intro v hv
          rcases List.mem_cons.mp hv with rfl | hv
          · exact List.mem_cons_self v us
          · exact List.mem_cons_of_mem u (ih6 v hv)
      · have hok' : ok u = false := Bool.not_eq_true _ ▸ hok
        rw [notifyBucket_cons_fail hlk hok']
        obtain ⟨ih1, ih2, ih3, ih4, ih5, ih6, ih7⟩ :=
          ih { heap := ns.heap.set u { hGet ns.heap u with cur := rev },
               unsynced := insertW ns.unsynced u,
               sends := ns.sends }
        refine ⟨?_, ?_, ?_, ?_, ?_, ?_, ?_⟩
        · rw [ih1]
          show (ns.heap.set u _).length = ns.heap.length
          rw [List.length_set]
        · intro v hv
          have hvu : u ≠ v := fun he => hv (he ▸ List.mem_cons_self u us)
          rw [ih2 v (fun h => hv (List.mem_cons_of_mem u h))]
          exact hGet_set_ne ns.heap u _ v hvu
        · intro v hv
          exact ih3 v (mem_insertW.mpr (Or.inl hv))
        · intro v hv
          rcases ih4 v hv with hv | hv
          · rcases mem_insertW.mp hv with hv | rfl
            · exact Or.inl hv
            · exact Or.inr (List.mem_cons_self v us)
          · exact Or.inr (List.mem_cons_of_mem u hv)
        · intro v hv
          exact ih5 v (fun h => hv (List.mem_cons_of_mem u h))
        · intro v hv
          exact List.mem_cons_of_mem u (ih6 v hv)
        · intro hnd
          exact ih7 (insertW_nodup hnd)

/-- The per-watcher outcome of a notify pass, relative to the starting
accumulator `ns`: if `w` has no pending events it is untouched (`inB`:
still in its bucket); if it has events and its channel accepts, it stays
(`inB`) and exactly one response is appended for it; otherwise it is
demoted: dropped from its bucket (`outB`), `cur` set to `rev`, inserted
into unsynced, and nothing is sent to it.  `inB` / `outB` abstract over
the bucket-membership claim (single bucket vs. whole synced map). -/
def wOutcome (we : List (Nat × List Event)) (rev curRev : Int) (ok : Nat → Bool)
    (w : Nat) (ns : NotifyAcc) (heap' : List Watcher) (uns' : List Nat)
    (sends' : List (Nat × WatchResponse)) (inB outB : Prop) : Prop :=
  match lookupEvents we w with
  | none =>
    inB ∧ hGet heap' w = hGet ns.heap w ∧
    sendsFor sends' w = sendsFor ns.sends w ∧
    (w ∈ uns' ↔ w ∈ ns.unsynced)
  | some es =>
    if ok w = true then
      inB ∧ hGet heap' w = hGet ns.heap w ∧
      sendsFor sends' w =
        sendsFor ns.sends w ++ [(w, ⟨(hGet ns.heap w).id, es, curRev⟩)] ∧
      (w ∈ uns' ↔ w ∈ ns.unsynced)
    else
      outB ∧ hGet heap' w = { hGet ns.heap w with cur := rev } ∧
      sendsFor sends' w = sendsFor ns.sends w ∧
      w ∈ uns'

theorem wOutcome_transport {we : List (Nat × List Event)} {rev curRev : Int}
    {ok : Nat → Bool} {w : Nat} {ns1 ns : NotifyAcc} {heap' : List Watcher}
    {uns' : List Nat} {sends' : List (Nat × WatchResponse)} {inB outB : Prop}
    (h : wOutcome we rev curRev ok w ns1 heap' uns' sends' inB outB)
    (hheap : hGet ns1.heap w = hGet ns.heap w)
    (hsends : sendsFor ns1.sends w = sendsFor ns.sends w)
    (huns : w ∈ ns1.unsynced ↔ w ∈ ns.unsynced) :
    wOutcome we rev curRev ok w ns heap' uns' sends' inB outB := by
  unfold wOutcome at h ⊢
  cases hlk : lookupEvents we w with
  | none =>
    simp only [hlk] at h ⊢
    exact ⟨h.1, h.2.1.trans hheap, h.2.2.1.trans hsends, h.2.2.2.trans huns⟩
  | some es =>
    simp only [hlk] at h ⊢
    by_cases hok : ok w = true
    · rw [if_pos hok] at h ⊢
      refine ⟨h.1, h.2.1.trans hheap, ?_, h.2.2.2.trans huns⟩
      rw [h.2.2.1, hsends, hheap]
    · rw [if_neg hok] at h ⊢
      refine ⟨h.1, ?_, h.2.2.1.trans hsends, h.2.2.2⟩
      rw [h.2.1, hheap]

theorem wOutcome_mono {we : List (Nat × List Event)} {rev curRev : Int}
    {ok : Nat → Bool} {w : Nat} {ns : NotifyAcc} {heap' : List Watcher}
    {uns' : List Nat} {sends' : List (Nat × WatchResponse)}
    {inB outB inB' outB' : Prop}
    (h : wOutcome we rev curRev ok w ns heap' uns' sends' inB outB)
    (hi : inB → inB') (ho : outB → outB') :
    wOutcome we rev curRev ok w ns heap' uns' sends' inB' outB' := by
  unfold wOutcome at h ⊢
  cases hlk : lookupEvents we w with
  | none =>
    simp only [hlk] at h ⊢
    exact ⟨hi h.1, h.2⟩
  | some es =>
    simp only [hlk] at h ⊢
    by_cases hok : ok w = true
    · rw [if_pos hok] at h ⊢
      exact ⟨hi h.1, h.2⟩
    · rw [if_neg hok] at h ⊢
      exact ⟨ho h.1, h.2⟩

theorem wOutcome_none {we : List (Nat × List Event)} {rev curRev : Int}
    {ok : Nat → Bool} {w : Nat} {ns : NotifyAcc} {heap' : List Watcher}
    {uns' : List Nat} {sends' : List (Nat × WatchResponse)} {inB outB : Prop}
    (hlk : lookupEvents we w = none) (h1 : inB)
    (h2 : hGet heap' w = hGet ns.heap w)
    (h3 : sendsFor sends' w = sendsFor ns.sends w)
    (h4 : w ∈ uns' ↔ w ∈ ns.unsynced) :
    wOutcome we rev curRev ok w ns heap' uns' sends' inB outB := by
  unfold wOutcome
  simp only [hlk]
  exact ⟨h1, h2, h3, h4⟩

theorem wOutcome_ok {we : List (Nat × List Event)} {rev curRev : Int}
    {ok : Nat → Bool} {w : Nat} {ns : NotifyAcc} {heap' : List Watcher}
    {uns' : List Nat} {sends' : List (Nat × WatchResponse)} {inB outB : Prop}
    {es : List Event} (hlk : lookupEvents we w = some es) (hok : ok w = true)
    (h1 : inB) (h2 : hGet heap' w = hGet ns.heap w)
    (h3 : sendsFor sends' w =
      sendsFor ns.sends w ++ [(w, ⟨(hGet ns.heap w).id, es, curRev⟩)])
    (h4 : w ∈ uns' ↔ w ∈ ns.unsynced) :
    wOutcome we rev curRev ok w ns heap' uns' sends' inB outB := by
  unfold wOutcome
  simp only [hlk]
  rw [if_pos hok]
  exact ⟨h1, h2, h3, h4⟩

theorem wOutcome_fail {we : List (Nat × List Event)} {rev curRev : Int}
    {ok : Nat → Bool} {w : Nat} {ns : NotifyAcc} {heap' : List Watcher}
    {uns' : List Nat} {sends' : List (Nat × WatchResponse)} {inB outB : Prop}
    {es : List Event} (hlk : lookupEvents we w = some es) (hok : ok w = false)
    (h1 : outB) (h2 : hGet heap' w = { hGet ns.heap w with cur := rev })
    (h3 : sendsFor sends' w = sendsFor ns.sends w)
    (h4 : w ∈ uns') :
    wOutcome we rev curRev ok w ns heap' uns' sends' inB outB := by
  unfold wOutcome
  simp only [hlk]
  rw [if_neg (by rw [hok]; exact Bool.false_ne_true)]
  exact ⟨h1, h2, h3, h4⟩

theorem wOutcome_step_ok {we : List (Nat × List Event)} {rev curRev : Int}
    {ok : Nat → Bool} {w u : Nat} {r : WatchResponse} {ns : NotifyAcc}
    {heap' : List Watcher} {uns' : List Nat}
    {sends' : List (Nat × WatchResponse)} {inB outB : Prop} (hwu : w ≠ u)
    (h : wOutcome we rev curRev ok w
      ⟨ns.heap, ns.unsynced, ns.sends ++ [(u, r)]⟩ heap' uns' sends' inB outB) :
    wOutcome we rev curRev ok w ns heap' uns' sends' inB outB := by
  have hs : sendsFor (ns.sends ++ [(u, r)]) w = sendsFor ns.sends w := by
    rw [sendsFor_append, sendsFor_single_ne u w r (fun he => hwu he.symm),
      List.append_nil]
  unfold wOutcome at h ⊢
  cases hlk : lookupEvents we w with
  | none =>
    simp only [hlk] at h ⊢
    exact ⟨h.1, h.2.1, h.2.2.1.trans hs, h.2.2.2⟩
  | some es =>
    simp only [hlk] at h ⊢
    by_cases hok : ok w = true
    · rw [if_pos hok] at h ⊢
      refine ⟨h.1, h.2.1, ?_, h.2.2.2⟩
      calc sendsFor sends' w
          = sendsFor (ns.sends ++ [(u, r)]) w ++
              [(w, ⟨(hGet ns.heap w).id, es, curRev⟩)] := h.2.2.1
        _ = sendsFor ns.sends w ++
              [(w, ⟨(hGet ns.heap w).id, es, curRev⟩)] := by rw [hs]
    · rw [if_neg hok] at h ⊢
      exact ⟨h.1, h.2.1, h.2.2.1.trans hs, h.2.2.2⟩

theorem wOutcome_step_fail {we : List (Nat × List Event)} {rev curRev : Int}
    {ok : Nat → Bool} {w u : Nat} {x : Watcher} {ns : NotifyAcc}
    {heap' : List Watcher} {uns' : List Nat}
    {sends' : List (Nat × WatchResponse)} {inB outB : Prop} (hwu : w ≠ u)
    (h : wOutcome we rev curRev ok w
      ⟨ns.heap.set u x, insertW ns.unsynced u, ns.sends⟩
      heap' uns' sends' inB outB) :
    wOutcome we rev curRev ok w ns heap' uns' sends' inB outB := by
  have hh : hGet (ns.heap.set u x) w = hGet ns.heap w :=
    hGet_set_ne ns.heap u x w (fun he => hwu he.symm)
  have hu : w ∈ insertW ns.unsynced u ↔ w ∈ ns.unsynced := by
    rw [mem_insertW]
    constructor
    · rintro (h | rfl)
      · exact h
      · exact absurd rfl hwu
    · exact Or.inl
  unfold wOutcome at h ⊢
  cases hlk : lookupEvents we w with
  | none =>
    simp only [hlk] at h ⊢
    exact ⟨h.1, h.2.1.trans hh, h.2.2.1, h.2.2.2.trans hu⟩
  | some es =>
    simp only [hlk] at h ⊢
    by_cases hok : ok w = true
    · rw [if_pos hok] at h ⊢
      refine ⟨h.1, h.2.1.trans hh, ?_, h.2.2.2.trans hu⟩
      calc sendsFor sends' w
          = sendsFor ns.sends w ++
              [(w, ⟨(hGet (ns.heap.set u x) w).id, es, curRev⟩)] := h.2.2.1
        _ = sendsFor ns.sends w ++
              [(w, ⟨(hGet ns.heap w).id, es, curRev⟩)] := by rw [hh]
    · rw [if_neg hok] at h ⊢
      refine ⟨h.1, ?_, h.2.2.1, h.2.2.2⟩
      calc hGet heap' w
          = { hGet (ns.heap.set u x) w with cur := rev } := h.2.1
        _ = { hGet ns.heap w with cur := rev } := by rw [hh]

theorem notifyBucket_spec {we : List (Nat × List Event)} {rev curRev : Int}
    {ok : Nat → Bool} {b : List Nat} {ns : NotifyAcc} {w : Nat}
    (hnd : b.Nodup) (hw : w ∈ b) (hlen : w < ns.heap.length) :
    wOutcome we rev curRev ok w ns
      (notifyBucket we rev curRev ok b ns).2.heap
      (notifyBucket we rev curRev ok b ns).2.unsynced
      (notifyBucket we rev curRev ok b ns).2.sends
      (w ∈ (notifyBucket we rev curRev ok b ns).1)
      (w ∉ (notifyBucket we rev curRev ok b ns).1) := by
  induction b generalizing ns with
  | nil => exact absurd hw (List.not_mem_nil w)
  | cons u us ih =>
    have hnds := List.nodup_cons.mp hnd
    by_cases hu : u = w
    · subst hu
      have hnot : u ∉ us := hnds.1
      obtain ⟨e1, e2, e3, e4, e5, e6, e7⟩ :=
        notifyBucket_effects we rev curRev ok us ns
      cases hlk : lookupEvents we u with
      | none =>
        rw [notifyBucket_cons_none_fst hlk, notifyBucket_cons_none_snd hlk]
        refine wOutcome_none hlk (List.mem_cons_self u _) (e2 u hnot) (e5 u hnot) ?_
        constructor
        · intro h
          rcases e4 u h with h | h
          · exact h
          · exact absurd h hnot
        · exact e3 u
      | some es =>
        by_cases hok : ok u = true
        · rw [notifyBucket_cons_ok_fst hlk hok, notifyBucket_cons_ok_snd hlk hok]
          obtain ⟨f1, f2, f3, f4, f5, f6, f7⟩ :=
            notifyBucket_effects we rev curRev ok us
              { ns with sends := ns.sends ++ [(u, ⟨(hGet ns.heap u).id, es, curRev⟩)] }
          refine wOutcome_ok hlk hok (List.mem_cons_self u _) (f2 u hnot) ?_ ?_
          · rw [f5 u hnot]
            show sendsFor (ns.sends ++ [(u, _)]) u = _
            rw [sendsFor_append, sendsFor_single_self]
          · constructor
            · intro h
              rcases f4 u h with h | h
              · exact h
              · exact absurd h hnot
            · exact f3 u
        · have hok' : ok u = false := Bool.not_eq_true _ ▸ hok
          rw [notifyBucket_cons_fail hlk hok']
          obtain ⟨f1, f2, f3, f4, f5, f6, f7⟩ :=
            notifyBucket_effects we rev curRev ok us
              { heap := ns.heap.set u { hGet ns.heap u with cur := rev },
                unsynced := insertW ns.unsynced u,
                sends := ns.sends }
          refine wOutcome_fail hlk hok' (fun hmem => hnot (f6 u hmem)) ?_
            (f5 u hnot) ?_
          · rw [f2 u hnot]
            exact hGet_set_self ns.heap u _ hlen
          · exact f3 u (mem_insertW.mpr (Or.inr rfl))
    · have hw' : w ∈ us := by
        rcases List.mem_cons.mp hw with h | h
        · exact absurd h.symm hu
        · exact h
      have hwu : w ≠ u := fun he => hu he.symm
      cases hlk : lookupEvents we u with
      | none =>
        rw [notifyBucket_cons_none_fst hlk, notifyBucket_cons_none_snd hlk]
        have := ih hnds.2 hw' hlen
        exact wOutcome_mono this
          (fun h => List.mem_cons_of_mem u h)
          (fun h hmem => h (by
            rcases List.mem_cons.mp hmem with he | he
            · exact absurd he hwu
            · exact he))
      | some es =>
        by_cases hok : ok u = true
        · rw [notifyBucket_cons_ok_fst hlk hok, notifyBucket_cons_ok_snd hlk hok]
          have hlen1 : w <
              (NotifyAcc.mk ns.heap ns.unsynced
                (ns.sends ++ [(u, ⟨(hGet ns.heap u).id, es, curRev⟩)])).heap.length :=
            hlen
          have hstep := wOutcome_step_ok hwu (ih hnds.2 hw' hlen1)
          exact wOutcome_mono hstep
            (fun h => List.mem_cons_of_mem u h)
            (fun h hmem => h (by
              rcases List.mem_cons.mp hmem with he | he
              · exact absurd he hwu
              · exact he))
        · have hok' : ok u = false := Bool.not_eq_true _ ▸ hok
          rw [notifyBucket_cons_fail hlk hok']
          have hlen1 : w <
              (NotifyAcc.mk (ns.heap.set u { hGet ns.heap u with cur := rev })
                (insertW ns.unsynced u) ns.sends).heap.length := by
            show w < (ns.heap.set u _).length
            rw [List.length_set]
            exact hlen
          exact wOutcome_step_fail hwu (ih hnds.2 hw' hlen1)

theorem notifyBuckets_cons (we : List (Nat × List Event)) (rev curRev : Int)
    (ok : Nat → Bool) (k : Key) (b : List Nat) (rest : List (Key × List Nat))
    (ns : NotifyAcc) :
    notifyBuckets we rev curRev ok ((k, b) :: rest) ns =
      ((k, (notifyBucket we rev curRev ok b ns).1) ::
        (notifyBuckets we rev curRev ok rest
          (notifyBucket we rev curRev ok b ns).2).1,
       (notifyBuckets we rev curRev ok rest
          (notifyBucket we rev curRev ok b ns).2).2) := by
  conv_lhs => unfold notifyBuckets

theorem notifyBuckets_cons_fst (we : List (Nat × List Event)) (rev curRev : Int)
    (ok : Nat → Bool) (k : Key) (b : List Nat) (rest : List (Key × List Nat))
    (ns : NotifyAcc) :
    (notifyBuckets we rev curRev ok ((k, b) :: rest) ns).1 =
      (k, (notifyBucket we rev curRev ok b ns).1) ::
        (notifyBuckets we rev curRev ok rest
          (notifyBucket we rev curRev ok b ns).2).1 := by
  rw [notifyBuckets_cons]

theorem notifyBuckets_cons_snd (we : List (Nat × List Event)) (rev curRev : Int)
    (ok : Nat → Bool) (k : Key) (b : List Nat) (rest : List (Key × List Nat))
    (ns : NotifyAcc) :
    (notifyBuckets we rev curRev ok ((k, b) :: rest) ns).2 =
      (notifyBuckets we rev curRev ok rest
        (notifyBucket we rev curRev ok b ns).2).2 := by
  rw [notifyBuckets_cons]

theorem notifyBuckets_effects (we : List (Nat × List Event)) (rev curRev : Int)
    (ok : Nat → Bool) (sm : List (Key × List Nat)) (ns : NotifyAcc) :
    ((notifyBuckets we rev curRev ok sm ns).2.heap.length = ns.heap.length) ∧
    (∀ v, (∀ kb ∈ sm, v ∉ kb.2) →
      hGet (notifyBuckets we rev curRev ok sm ns).2.heap v = hGet ns.heap v) ∧
    (∀ v ∈ ns.unsynced, v ∈ (notifyBuckets we rev curRev ok sm ns).2.unsynced) ∧
    (∀ v ∈ (notifyBuckets we rev curRev ok sm ns).2.unsynced,
      v ∈ ns.unsynced ∨ ∃ kb ∈ sm, v ∈ kb.2) ∧
    (∀ v, (∀ kb ∈ sm, v ∉ kb.2) →
      sendsFor (notifyBuckets we rev curRev ok sm ns).2.sends v =
        sendsFor ns.sends v) ∧
    ((notifyBuckets we rev curRev ok sm ns).1.map Prod.fst = sm.map Prod.fst) ∧
    (∀ kb' ∈ (notifyBuckets we rev curRev ok sm ns).1,
      ∃ kb ∈ sm, kb'.1 = kb.1 ∧ kb'.2 ⊆ kb.2) ∧
    (ns.unsynced.Nodup → (notifyBuckets we rev curRev ok sm ns).2.unsynced.Nodup) := by
  induction sm generalizing ns with
  | nil =>
    refine ⟨rfl, fun v _ => rfl, fun v h => h, fun v h => Or.inl h,
      fun v _ => rfl, rfl, ?_, fun h => h⟩
    intro kb' h
    simp [notifyBuckets] at h
  | cons p rest ih =>
    obtain ⟨k, b⟩ := p
    obtain ⟨e1, e2, e3, e4, e5, e6, e7⟩ :=
      notifyBucket_effects we rev curRev ok b ns
    obtain ⟨f1, f2, f3, f4, f5, f6, f7, f8⟩ :=
      ih (notifyBucket we rev curRev ok b ns).2
    rw [notifyBuckets_cons_fst, notifyBuckets_cons_snd]
    refine ⟨f1.trans e1, ?_, ?_, ?_, ?_, ?_, ?_, fun h => f8 (e7 h)⟩
    · intro v hv
      have hvb : v ∉ b := hv (k, b) (List.mem_cons_self _ _)
      rw [f2 v (fun kb hkb => hv kb (List.mem_cons_of_mem _ hkb))]
      exact e2 v hvb
    · intro v hv
      exact f3 v (e3 v hv)
    · intro v hv
      rcases f4 v hv with hv | ⟨kb, hkb, hvkb⟩
      · rcases e4 v hv with hv | hv
        · exact Or.inl hv
        · exact Or.inr ⟨(k, b), List.mem_cons_self _ _, hv⟩
      · exact Or.inr ⟨kb, List.mem_cons_of_mem _ hkb, hvkb⟩
    · intro v hv
      have hvb : v ∉ b := hv (k, b) (List.mem_cons_self _ _)
      rw [f5 v (fun kb hkb => hv kb (List.mem_cons_of_mem _ hkb))]
      exact e5 v hvb
    · rw [List.map_cons, List.map_cons, f6]
    · intro kb' hkb'
      rcases List.mem_cons.mp hkb' with rfl | hkb'
      · exact ⟨(k, b), List.mem_cons_self _ _, rfl, fun v hv => e6 v hv⟩
      · obtain ⟨kb, hkb, h1, h2⟩ := f7 kb' hkb'
        exact ⟨kb, List.mem_cons_of_mem _ hkb, h1, h2⟩

theorem wOutcome_congr {we : List (Nat × List Event)} {rev curRev : Int}
    {ok : Nat → Bool} {w : Nat} {ns : NotifyAcc}
    {heap1 heap2 : List Watcher} {uns1 uns2 : List Nat}
    {sends1 sends2 : List (Nat × WatchResponse)} {inB outB : Prop}
    (h : wOutcome we rev curRev ok w ns heap1 uns1 sends1 inB outB)
    (hheap : hGet heap2 w = hGet heap1 w)
    (hsends : sendsFor sends2 w = sendsFor sends1 w)
    (huns : w ∈ uns2 ↔ w ∈ uns1) :
    wOutcome we rev curRev ok w ns heap2 uns2 sends2 inB outB := by
  unfold wOutcome at h ⊢
  cases hlk : lookupEvents we w with
  | none =>
    simp only [hlk] at h ⊢
    exact ⟨h.1, hheap.trans h.2.1, hsends.trans h.2.2.1, huns.trans h.2.2.2⟩
  | some es =>
    simp only [hlk] at h ⊢
    by_cases hok : ok w = true
    · rw [if_pos hok] at h ⊢
      exact ⟨h.1, hheap.trans h.2.1, hsends.trans h.2.2.1, huns.trans h.2.2.2⟩
    · rw [if_neg hok] at h ⊢
      exact ⟨h.1, hheap.trans h.2.1, hsends.trans h.2.2.1, huns.mpr h.2.2.2⟩

theorem notifyBuckets_spec {we : List (Nat × List Event)} {rev curRev : Int}
    {ok : Nat → Bool} {sm : List (Key × List Nat)} {ns : NotifyAcc}
    {w : Nat} {k : Key} {b : List Nat}
    (hkb : (k, b) ∈ sm) (hw : w ∈ b)
    (hnd : (sm.map Prod.fst).Nodup)
    (huniq : ∀ kb ∈ sm, w ∈ kb.2 → kb = (k, b))
    (hbnd : ∀ kb ∈ sm, kb.2.Nodup)
    (hlen : w < ns.heap.length) :
    wOutcome we rev curRev ok w ns
      (notifyBuckets we rev curRev ok sm ns).2.heap
      (notifyBuckets we rev curRev ok sm ns).2.unsynced
      (notifyBuckets we rev curRev ok sm ns).2.sends
      (∃ b', (k, b') ∈ (notifyBuckets we rev curRev ok sm ns).1 ∧
        b' ⊆ b ∧ w ∈ b')
      (∃ b', (k, b') ∈ (notifyBuckets we rev curRev ok sm ns).1 ∧
        b' ⊆ b ∧ w ∉ b') := by
  induction sm generalizing ns with
  | nil => exact absurd hkb (List.not_mem_nil _)
  | cons p rest ih =>
    obtain ⟨k1, b1⟩ := p
    rw [List.map_cons] at hnd
    have hnd1 := List.nodup_cons.mp hnd
    rw [notifyBuckets_cons_fst, notifyBuckets_cons_snd]
    by_cases hwb1 : w ∈ b1
    · have hp : (k1, b1) = (k, b) := huniq (k1, b1) (List.mem_cons_self _ _) hwb1
      have hk1 : k1 = k := congrArg Prod.fst hp
      have hb1 : b1 = b := congrArg Prod.snd hp
      subst hk1
      subst hb1
      have hspec := @notifyBucket_spec we rev curRev ok b1 ns w
        (hbnd (k1, b1) (List.mem_cons_self _ _)) hwb1 hlen
      obtain ⟨e1, e2, e3, e4, e5, e6, e7⟩ :=
        notifyBucket_effects we rev curRev ok b1 ns
      obtain ⟨f1, f2, f3, f4, f5, f6, f7, f8⟩ :=
        notifyBuckets_effects we rev curRev ok rest
          (notifyBucket we rev curRev ok b1 ns).2
      have hrest : ∀ kb ∈ rest, w ∉ kb.2 := by
        intro kb hkbr hwkb
        have heq := huniq kb (List.mem_cons_of_mem _ hkbr) hwkb
        apply hnd1.1
        exact List.mem_map.mpr ⟨kb, hkbr, congrArg Prod.fst heq⟩
      have hcongr := wOutcome_congr hspec
        (f2 w hrest) (f5 w hrest)
        (by
          constructor
          · intro h
            rcases f4 w h with h | ⟨kb, hkbr, hwkb⟩
            · exact h
            · exact absurd hwkb (hrest kb hkbr)
          · exact f3 w)
      exact wOutcome_mono hcongr
        (fun h => ⟨(notifyBucket we rev curRev ok b1 ns).1,
          List.mem_cons_self _ _, fun v hv => e6 v hv, h⟩)
        (fun h => ⟨(notifyBucket we rev curRev ok b1 ns).1,
          List.mem_cons_self _ _, fun v hv => e6 v hv, h⟩)
    · have hkbr : (k, b) ∈ rest := by
        rcases List.mem_cons.mp hkb with heq | h
        · have hb : b = b1 := congrArg Prod.snd heq
          exact absurd (hb ▸ hw) hwb1
        · exact h
      obtain ⟨e1, e2, e3, e4, e5, e6, e7⟩ :=
        notifyBucket_effects we rev curRev ok b1 ns
      have hlen1 : w < (notifyBucket we rev curRev ok b1 ns).2.heap.length := by
        rw [e1]
        exact hlen
      have hihres := ih hkbr hnd1.2
        (fun kb hkbr' hwkb => huniq kb (List.mem_cons_of_mem _ hkbr') hwkb)
        (fun kb hkbr' => hbnd kb (List.mem_cons_of_mem _ hkbr'))
        hlen1
      have htrans := wOutcome_transport hihres
        (e2 w hwb1) (e5 w hwb1)
        (by
          constructor
          · intro h
            rcases e4 w h with h | h
            · exact h
            · exact absurd h hwb1
          · exact e3 w)
      exact wOutcome_mono htrans
        (fun ⟨b', h1, h2, h3⟩ => ⟨b', List.mem_cons_of_mem _ h1, h2, h3⟩)
        (fun ⟨b', h1, h2, h3⟩ => ⟨b', List.mem_cons_of_mem _ h1, h2, h3⟩)

theorem eq_of_mem_nodup_keys {sm : List (Key × List Nat)}
    (hnd : (sm.map Prod.fst).Nodup) {kb1 kb2 : Key × List Nat}
    (h1 : kb1 ∈ sm) (h2 : kb2 ∈ sm) (hk : kb1.1 = kb2.1) : kb1 = kb2 := by
  induction sm with
  | nil => exact absurd h1 (List.not_mem_nil _)
  | cons p rest ih =>
    rw [List.map_cons] at hnd
    have hnd1 := List.nodup_cons.mp hnd
    rcases List.mem_cons.mp h1 with he1 | h1'
    · rcases List.mem_cons.mp h2 with he2 | h2'
      · rw [he1, he2]
      · exact absurd (he1 ▸ List.mem_map.mpr ⟨kb2, h2', hk.symm⟩) hnd1.1
    · rcases List.mem_cons.mp h2 with he2 | h2'
      · exact absurd (he2 ▸ List.mem_map.mpr ⟨kb1, h1', hk⟩) hnd1.1
      · exact ih hnd1.2 h1' h2'

theorem notify_eq (st : StoreState) (rev : Int) (evs : List Event)
    (ok : Nat → Bool) :
    notify st rev evs ok =
      ({ st with
          watchers := (notifyBuckets (newWatcherToEventMap st.watchers st.synced evs)
            rev st.currentRev ok st.synced ⟨st.watchers, st.unsynced, []⟩).2.heap,
          synced := (notifyBuckets (newWatcherToEventMap st.watchers st.synced evs)
            rev st.currentRev ok st.synced ⟨st.watchers, st.unsynced, []⟩).1,
          unsynced := (notifyBuckets (newWatcherToEventMap st.watchers st.synced evs)
            rev st.currentRev ok st.synced ⟨st.watchers, st.unsynced, []⟩).2.unsynced },
       (notifyBuckets (newWatcherToEventMap st.watchers st.synced evs)
          rev st.currentRev ok st.synced ⟨st.watchers, st.unsynced, []⟩).2.sends) := by
  conv_lhs => unfold notify

/-- The per-watcher behaviour of one `notify` call, for a watcher `w`
sitting in bucket `(k, b)` of `synced` that matches at least one event:
on a successful non-blocking send it receives exactly one WatchResponse
carrying all its matching events at revision `s.Rev()` and keeps its
bucket membership and record; on a full channel it is demoted — removed
from the bucket, `cur := rev`, inserted into unsynced, nothing sent. -/
theorem notify_spec (st : StoreState) (rev : Int) (evs : List Event)
    (ok : Nat → Bool) (w : Nat) (k : Key) (b : List Nat)
    (hwf : WF st) (hkb : (k, b) ∈ st.synced) (hw : w ∈ b)
    (hmatch : ∃ ev ∈ evs, wMatch (hGet st.watchers w) ev.kv.key = true) :
    (ok w = true →
      sendsFor (notify st rev evs ok).2 w =
        [(w, ⟨(hGet st.watchers w).id,
          evs.filter fun ev => wMatch (hGet st.watchers w) ev.kv.key,
          st.currentRev⟩)] ∧
      hGet (notify st rev evs ok).1.watchers w = hGet st.watchers w ∧
      (∃ b', (k, b') ∈ (notify st rev evs ok).1.synced ∧ b' ⊆ b ∧ w ∈ b') ∧
      (w ∈ (notify st rev evs ok).1.unsynced ↔ w ∈ st.unsynced)) ∧
    (ok w = false →
      sendsFor (notify st rev evs ok).2 w = [] ∧
      hGet (notify st rev evs ok).1.watchers w =
        { hGet st.watchers w with cur := rev } ∧
      w ∈ (notify st rev evs ok).1.unsynced ∧
      ∃ b', (k, b') ∈ (notify st rev evs ok).1.synced ∧ b' ⊆ b ∧ w ∉ b') := by
  obtain ⟨⟨hnd, hkeyed, hbnd, hblen⟩, hund, hulen, hdisj⟩ := hwf
  have hk : ∀ kb ∈ st.synced, w ∈ kb.2 → kb.1 = (hGet st.watchers w).key :=
    fun kb hkb' hw' => (hkeyed kb hkb' w hw').symm
  have hkey : k = (hGet st.watchers w).key := (hkeyed (k, b) hkb w hw).symm
  have huniq : ∀ kb ∈ st.synced, w ∈ kb.2 → kb = (k, b) := by
    intro kb hkb' hwkb
    exact eq_of_mem_nodup_keys hnd hkb' hkb ((hk kb hkb' hwkb).trans hkey.symm)
  have hlen : w < st.watchers.length := hblen (k, b) hkb w hw
  have hbt : inBucket st.synced (hGet st.watchers w).key w = true :=
    (inBucket_iff hnd hkeyed).mpr ⟨(k, b), hkb, hw⟩
  have hflt : (evs.filter fun ev => wMatch (hGet st.watchers w) ev.kv.key) ≠ [] := by
    intro hnil
    obtain ⟨ev, hev, hm⟩ := hmatch
    exact absurd hm (List.filter_eq_nil_iff.mp hnil ev hev)
  have hlk : lookupEvents (newWatcherToEventMap st.watchers st.synced evs) w =
      some (evs.filter fun ev => wMatch (hGet st.watchers w) ev.kv.key) := by
    rw [lookupEvents_newWatcherToEventMap hk hbnd, if_pos hbt, if_neg hflt]
  have hspec := @notifyBuckets_spec
    (newWatcherToEventMap st.watchers st.synced evs) rev st.currentRev ok
    st.synced ⟨st.watchers, st.unsynced, []⟩ w k b hkb hw hnd huniq hbnd hlen
  rw [notify_eq]
  unfold wOutcome at hspec
  simp only [hlk] at hspec
  constructor
  · intro hok
    rw [if_pos hok] at hspec
    exact ⟨by rw [hspec.2.2.1]; rfl, hspec.2.1, hspec.1, hspec.2.2.2⟩
  · intro hok
    rw [if_neg (by rw [hok]; exact Bool.false_ne_true)] at hspec
    exact ⟨hspec.2.2.1, hspec.2.1, hspec.2.2.2, hspec.1⟩

/-- The backend records a mutation's commit appends to the key bucket. -/
def mutRecs : Mutation → List BackendRec
  | .putM c rev => [⟨rev, c, false⟩]
  | .delM cs rev => cs.map fun c => ⟨rev, c, true⟩
  | .txnM cs rev => cs.map fun c => ⟨rev, c, c.value = none⟩

/-- The state after the inner store committed mutation `m`, before the
notifier runs. -/
def stCommit (st : StoreState) (m : Mutation) : StoreState :=
  { st with currentRev := m.rev, backend := st.backend ++ mutRecs m }

theorem execMutation_eq (st : StoreState) (m : Mutation) (ok : Nat → Bool)
    (hne : m.events ≠ []) :
    execMutation st m ok =
      ⟨(notify (stCommit st m) m.rev m.events ok).1,
       (notify (stCommit st m) m.rev m.events ok).2,
       [(m.rev, m.events)]⟩ := by
  cases m with
  | putM c rev => rfl
  | delM cs rev =>
    cases cs with
    | nil => exact absurd (by simp [Mutation.events]) hne
    | cons c cs => rfl
  | txnM cs rev =>
    cases cs with
    | nil => exact absurd (by simp [Mutation.events]) hne
    | cons c cs => rfl

/-- C1: for every mutation (Put, DeleteRange, or a transaction ending in
TxnEnd) producing a non-empty event batch at commit revision `m.rev`,
every synced watcher matching at least one of the events ends the
notifier call in exactly one of two states.  If its non-blocking send
succeeds it receives exactly one WatchResponse carrying all of its
matching events with `Revision = m.rev`, and it stays in its synced
bucket.  If its channel is full it is demoted: nothing is sent to it, its
`cur` is set to `m.rev`, it is inserted into unsynced and removed from
its synced bucket. -/
theorem mutation_synced_dichotomy (st : StoreState) (m : Mutation)
    (ok : Nat → Bool) (w : Nat) (k : Key) (b : List Nat) (hwf : WF st)
    (hkb : (k, b) ∈ st.synced) (hw : w ∈ b)
    (hmatch : ∃ ev ∈ m.events, wMatch (hGet st.watchers w) ev.kv.key = true) :
    (ok w = true →
      sendsFor (execMutation st m ok).sends w =
        [(w, ⟨(hGet st.watchers w).id,
          m.events.filter fun ev => wMatch (hGet st.watchers w) ev.kv.key,
          m.rev⟩)] ∧
      (∃ b', (k, b') ∈ (execMutation st m ok).st.synced ∧ b' ⊆ b ∧ w ∈ b')) ∧
    (ok w = false →
      sendsFor (execMutation st m ok).sends w = [] ∧
      hGet (execMutation st m ok).st.watchers w =
        { hGet st.watchers w with cur := m.rev } ∧
      w ∈ (execMutation st m ok).st.unsynced ∧
      ∃ b', (k, b') ∈ (execMutation st m ok).st.synced ∧ b' ⊆ b ∧ w ∉ b') := by
  have hne : m.events ≠ [] := by
    intro h
    obtain ⟨ev, hev, -⟩ := hmatch
    rw [h] at hev
    exact absurd hev (List.not_mem_nil _)
  rw [execMutation_eq st m ok hne]
  have hspec := notify_spec (stCommit st m) m.rev m.events ok w k b hwf hkb hw hmatch
  exact ⟨fun hok => ⟨(hspec.1 hok).1, (hspec.1 hok).2.2.1⟩,
    fun hok => ⟨(hspec.2 hok).1, (hspec.2 hok).2.1, (hspec.2 hok).2.2.1,
      (hspec.2 hok).2.2.2⟩⟩

/-- A one-watcher store used to witness the mutation theorems: watcher 0
watches key "a" (byte 97) exactly, synced, store at revision 1. -/
def c1st : StoreState :=
  ⟨[⟨[97], false, 0, 1, 0⟩], [], [([97], [0])], 1, 0, []⟩

/-- A Put of "a" committing at revision 2. -/
def c1m : Mutation := .putM ⟨[97], some [49], 2⟩ 2

/-- Witness for `mutation_synced_dichotomy`: the watcher receives exactly
one response with the event at revision 2. -/
theorem mutation_synced_dichotomy_witness :
    sendsFor (execMutation c1st c1m (fun _ => true)).sends 0 =
      [(0, ⟨1, [⟨.PUT, ⟨[97], some [49], 2⟩⟩], 2⟩)] := by
  have h := mutation_synced_dichotomy c1st c1m (fun _ => true) 0 [97] [0]
    (by decide) (by decide) (by decide) (by decide)
  have h1 := (h.1 rfl).1
  rw [h1]
  decide

/-- C10: a `notify` call is frame-local.  Watchers already unsynced stay
in unsynced with all their fields unchanged, and `notify` never removes
from unsynced — every member of the new unsynced set was unsynced before
or came out of a synced bucket.  A synced watcher matching no event of
the call keeps its whole record (key, prefix flag, cur, id, ch), stays
in the bucket of its key, is not added to unsynced, and is sent
nothing. -/
theorem notify_frame (st : StoreState) (rev : Int) (evs : List Event)
    (ok : Nat → Bool) (hwf : WF st) :
    (∀ v ∈ st.unsynced, v ∈ (notify st rev evs ok).1.unsynced ∧
      hGet (notify st rev evs ok).1.watchers v = hGet st.watchers v) ∧
    (∀ v ∈ (notify st rev evs ok).1.unsynced,
      v ∈ st.unsynced ∨ ∃ kb ∈ st.synced, v ∈ kb.2) ∧
    (∀ kb ∈ st.synced, ∀ v ∈ kb.2,
      (∀ ev ∈ evs, ¬wMatch (hGet st.watchers v) ev.kv.key = true) →
      hGet (notify st rev evs ok).1.watchers v = hGet st.watchers v ∧
      (∃ b', (kb.1, b') ∈ (notify st rev evs ok).1.synced ∧
        b' ⊆ kb.2 ∧ v ∈ b') ∧
      (v ∈ (notify st rev evs ok).1.unsynced ↔ v ∈ st.unsynced) ∧
      sendsFor (notify st rev evs ok).2 v = []) := by
  obtain ⟨⟨hnd, hkeyed, hbnd, hblen⟩, hund, hulen, hdisj⟩ := hwf
  obtain ⟨f1, f2, f3, f4, f5, f6, f7, f8⟩ :=
    notifyBuckets_effects (newWatcherToEventMap st.watchers st.synced evs)
      rev st.currentRev ok st.synced ⟨st.watchers, st.unsynced, []⟩
  refine ⟨?_, ?_, ?_⟩
  · intro v hv
    rw [notify_eq]
    exact ⟨f3 v hv, f2 v (fun kb hkb => hdisj v hv kb hkb)⟩
  · intro v hv
    rw [notify_eq] at hv
    exact f4 v hv
  · intro kb hkb v hv hnom
    have hk : ∀ kb' ∈ st.synced, v ∈ kb'.2 → kb'.1 = (hGet st.watchers v).key :=
      fun kb' hkb' hv' => (hkeyed kb' hkb' v hv').symm
    have huniq : ∀ kb' ∈ st.synced, v ∈ kb'.2 → kb' = (kb.1, kb.2) := by
      intro kb' hkb' hvkb
      exact eq_of_mem_nodup_keys hnd hkb' hkb
        ((hk kb' hkb' hvkb).trans ((hk kb hkb hv).symm))
    have hlen : v < st.watchers.length := hblen kb hkb v hv
    have hflt : (evs.filter fun ev => wMatch (hGet st.watchers v) ev.kv.key) = [] :=
      List.filter_eq_nil_iff.mpr hnom
    have hlkn : lookupEvents (newWatcherToEventMap st.watchers st.synced evs) v =
        none := by
      rw [lookupEvents_newWatcherToEventMap hk hbnd]
      by_cases hbt : inBucket st.synced (hGet st.watchers v).key v = true
      · rw [if_pos hbt, if_pos hflt]
      · rw [if_neg hbt]
    have hspec := @notifyBuckets_spec
      (newWatcherToEventMap st.watchers st.synced evs) rev st.currentRev ok
      st.synced ⟨st.watchers, st.unsynced, []⟩ v kb.1 kb.2
      (by simpa using hkb) hv hnd huniq hbnd hlen
    unfold wOutcome at hspec
    simp only [hlkn] at hspec
    rw [notify_eq]
    exact ⟨hspec.2.1, hspec.1, hspec.2.2.2, hspec.2.2.1⟩

/-- Witness for `notify_frame`: an unsynced watcher (1, on "b") and a
non-matching synced watcher (0, on "c") are untouched by a notify for
key "a". -/
theorem notify_frame_witness :
    1 ∈ (notify ⟨[⟨[99], false, 0, 1, 0⟩, ⟨[98], false, 3, 2, 0⟩], [1],
        [([99], [0])], 5, 0, []⟩ 6 [⟨.PUT, ⟨[97], some [49], 6⟩⟩]
        (fun _ => true)).1.unsynced ∧
    sendsFor (notify ⟨[⟨[99], false, 0, 1, 0⟩, ⟨[98], false, 3, 2, 0⟩], [1],
        [([99], [0])], 5, 0, []⟩ 6 [⟨.PUT, ⟨[97], some [49], 6⟩⟩]
        (fun _ => true)).2 0 = [] := by
  have h := notify_frame
    ⟨[⟨[99], false, 0, 1, 0⟩, ⟨[98], false, 3, 2, 0⟩], [1], [([99], [0])], 5, 0, []⟩
    6 [⟨.PUT, ⟨[97], some [49], 6⟩⟩] (fun _ => true) (by decide)
  exact ⟨(h.1 1 (by decide)).1,
    (h.2.2 ([99], [0]) (by decide) 0 (by decide) (by decide)).2.2.2⟩

/-! ### Preservation of well-formedness -/

theorem hGet_set_cur_key (heap : List Watcher) (u : Nat) (r : Int) (v : Nat) :
    (hGet (heap.set u { hGet heap u with cur := r }) v).key =
      (hGet heap v).key := by
  by_cases hu : u < heap.length
  · by_cases huv : u = v
    · subst huv
      rw [hGet_set_self heap u _ hu]

    · rw [hGet_set_ne heap u _ v huv]
  · rw [List.set_eq_of_length_le (Nat.le_of_not_lt hu)]

theorem notifyBucket_sublist (we : List (Nat × List Event)) (rev curRev : Int)
    (ok : Nat → Bool) (b : List Nat) (ns : NotifyAcc) :
    (notifyBucket we rev curRev ok b ns).1.Sublist b := by
  induction b generalizing ns with
  | nil => exact List.Sublist.refl []
  | cons u us ih =>
    cases hlk : lookupEvents we u with
    | none =>
      rw [notifyBucket_cons_none_fst hlk]
      exact List.Sublist.cons₂ u (ih ns)
    | some es =>
      by_cases hok : ok u = true
      · rw [notifyBucket_cons_ok_fst hlk hok]
        exact List.Sublist.cons₂ u (ih _)
      · have hok' : ok u = false := Bool.not_eq_true _ ▸ hok
        rw [notifyBucket_cons_fail hlk hok']
        exact List.Sublist.cons u (ih _)

theorem notifyBucket_heap_key (we : List (Nat × List Event)) (rev curRev : Int)
    (ok : Nat → Bool) (b : List Nat) (ns : NotifyAcc) (v : Nat) :
    (hGet (notifyBucket we rev curRev ok b ns).2.heap v).key =
      (hGet ns.heap v).key := by
  induction b generalizing ns with
  | nil => rfl
  | cons u us ih =>
    cases hlk : lookupEvents we u with
    | none =>
      rw [notifyBucket_cons_none_snd hlk]
      exact ih ns
    | some es =>
      by_cases hok : ok u = true
      · rw [notifyBucket_cons_ok_snd hlk hok]
        exact ih _
      · have hok' : ok u = false := Bool.not_eq_true _ ▸ hok
        rw [notifyBucket_cons_fail hlk hok']
        rw [ih _]
        exact hGet_set_cur_key ns.heap u rev v

theorem notifyBuckets_sublists (we : List (Nat × List Event)) (rev curRev : Int)
    (ok : Nat → Bool) (sm : List (Key × List Nat)) (ns : NotifyAcc) :
    ∀ kb' ∈ (notifyBuckets we rev curRev ok sm ns).1,
      ∃ kb ∈ sm, kb'.1 = kb.1 ∧ kb'.2.Sublist kb.2 := by
  induction sm generalizing ns with
  | nil =>
    intro kb' h
    simp [notifyBuckets] at h
  | cons p rest ih =>
    obtain ⟨k, b⟩ := p
    rw [notifyBuckets_cons_fst]
    intro kb' hkb'
    rcases List.mem_cons.mp hkb' with rfl | hkb'
    · exact ⟨(k, b), List.mem_cons_self _ _, rfl,
        notifyBucket_sublist we rev curRev ok b ns⟩
    · obtain ⟨kb, hkb, h1, h2⟩ := ih _ kb' hkb'
      exact ⟨kb, List.mem_cons_of_mem _ hkb, h1, h2⟩

theorem notifyBuckets_heap_key (we : List (Nat × List Event)) (rev curRev : Int)
    (ok : Nat → Bool) (sm : List (Key × List Nat)) (ns : NotifyAcc) (v : Nat) :
    (hGet (notifyBuckets we rev curRev ok sm ns).2.heap v).key =
      (hGet ns.heap v).key := by
  induction sm generalizing ns with
  | nil => rfl
  | cons p rest ih =>
    obtain ⟨k, b⟩ := p
    rw [notifyBuckets_cons_snd]
    rw [ih _]
    exact notifyBucket_heap_key we rev curRev ok b ns v

theorem WF_notify (st : StoreState) (rev : Int) (evs : List Event)
    (ok : Nat → Bool) (hwf : WF st) : WF (notify st rev evs ok).1 := by
  obtain ⟨⟨hnd, hkeyed, hbnd, hblen⟩, hund, hulen, hdisj⟩ := hwf
  obtain ⟨f1, f2, f3, f4, f5, f6, f7, f8⟩ :=
    notifyBuckets_effects (newWatcherToEventMap st.watchers st.synced evs)
      rev st.currentRev ok st.synced ⟨st.watchers, st.unsynced, []⟩
  have hsub := notifyBuckets_sublists
    (newWatcherToEventMap st.watchers st.synced evs)
    rev st.currentRev ok st.synced ⟨st.watchers, st.unsynced, []⟩
  have hhk := notifyBuckets_heap_key
    (newWatcherToEventMap st.watchers st.synced evs)
    rev st.currentRev ok st.synced ⟨st.watchers, st.unsynced, []⟩
  rw [notify_eq]
  refine ⟨⟨?_, ?_, ?_, ?_⟩, ?_, ?_, ?_⟩
  · show (List.map Prod.fst _).Nodup
    rw [f6]
    exact hnd
  · intro kb' hkb' v hv
    obtain ⟨kb, hkb, hk1, h2⟩ := hsub kb' hkb'
    have hvkb : v ∈ kb.2 := h2.subset hv
    show (hGet _ v).key = kb'.1
    rw [hhk v, hk1]
    exact hkeyed kb hkb v hvkb
  · intro kb' hkb'
    obtain ⟨kb, hkb, hk1, h2⟩ := hsub kb' hkb'
    exact h2.nodup (hbnd kb hkb)
  · intro kb' hkb' v hv
    obtain ⟨kb, hkb, hk1, h2⟩ := hsub kb' hkb'
    show v < (notifyBuckets _ _ _ _ _ _).2.heap.length
    rw [f1]
    exact hblen kb hkb v (h2.subset hv)
  · exact f8 hund
  · intro v hv
    show v < (notifyBuckets _ _ _ _ _ _).2.heap.length
    rw [f1]
    rcases f4 v hv with h | ⟨kb, hkb, hvkb⟩
    · exact hulen v h
    · exact hblen kb hkb v hvkb
  · intro v hv kb' hkb' hvkb'
    obtain ⟨kb, hkb, hk1, h2⟩ := hsub kb' hkb'
    have hvkb : v ∈ kb.2 := h2.subset hvkb'
    have hvold : v ∉ st.unsynced := fun h => hdisj v h kb hkb hvkb
    have hk : ∀ kb2 ∈ st.synced, v ∈ kb2.2 → kb2.1 = (hGet st.watchers v).key :=
      fun kb2 hkb2 hv2 => (hkeyed kb2 hkb2 v hv2).symm
    have huniq : ∀ kb2 ∈ st.synced, v ∈ kb2.2 → kb2 = (kb.1, kb.2) := by
      intro kb2 hkb2 hv2
      exact eq_of_mem_nodup_keys hnd hkb2 (by simpa using hkb)
        ((hk kb2 hkb2 hv2).trans ((hk kb hkb hvkb).symm))
    have hspec := @notifyBuckets_spec
      (newWatcherToEventMap st.watchers st.synced evs) rev st.currentRev ok
      st.synced ⟨st.watchers, st.unsynced, []⟩ v kb.1 kb.2
      (by simpa using hkb) hvkb hnd huniq hbnd (hblen kb hkb v hvkb)
    unfold wOutcome at hspec
    cases hlk : lookupEvents (newWatcherToEventMap st.watchers st.synced evs) v with
    | none =>
      simp only [hlk] at hspec
      exact hvold (hspec.2.2.2.mp hv)
    | some es =>
      simp only [hlk] at hspec
      by_cases hok : ok v = true
      · rw [if_pos hok] at hspec
        exact hvold (hspec.2.2.2.mp hv)
      · rw [if_neg hok] at hspec
        obtain ⟨b'', hb''mem, hb''sub, hvnot⟩ := hspec.1
        have hndr : ((notifyBuckets (newWatcherToEventMap st.watchers st.synced evs)
            rev st.currentRev ok st.synced
            ⟨st.watchers, st.unsynced, []⟩).1.map Prod.fst).Nodup := by
          rw [f6]
          exact hnd
        have heq : kb' = (kb.1, b'') :=
          eq_of_mem_nodup_keys hndr hkb' hb''mem hk1
        rw [heq] at hvkb'
        exact hvnot hvkb'

theorem lookupBucket_none_keys {sm : List (Key × List Nat)} {k : Key}
    (h : lookupBucket sm k = none) : k ∉ sm.map Prod.fst := by
  induction sm with
  | nil => simp
  | cons p rest ih =>
    obtain ⟨k', b⟩ := p
    by_cases hk : k' = k
    · subst hk
      simp [lookupBucket] at h
    · simp only [lookupBucket, if_neg hk] at h
      rw [List.map_cons]
      intro hmem
      rcases List.mem_cons.mp hmem with he | hmem
      · exact hk he.symm
      · exact ih h hmem

theorem setBucket_keys (sm : List (Key × List Nat)) (k : Key) (b : List Nat) :
    (setBucket sm k b).map Prod.fst = sm.map Prod.fst := by
  induction sm with
  | nil => rfl
  | cons p rest ih =>
    obtain ⟨k', b'⟩ := p
    by_cases hk : k' = k
    · simp [setBucket, hk]
    · simp [setBucket, hk, ih]

theorem mem_setBucket {sm : List (Key × List Nat)} {k : Key} {b : List Nat}
    {kb' : Key × List Nat} (h : kb' ∈ setBucket sm k b) :
    kb' = (k, b) ∨ kb' ∈ sm := by
  induction sm with
  | nil => simp [setBucket] at h
  | cons p rest ih =>
    obtain ⟨k', b'⟩ := p
    by_cases hk : k' = k
    · subst hk
      simp only [setBucket, if_pos rfl] at h
      rcases List.mem_cons.mp h with he | h
      · exact Or.inl (he.trans (by rfl))
      · exact Or.inr (List.mem_cons_of_mem _ h)
    · simp only [setBucket, if_neg hk] at h
      rcases List.mem_cons.mp h with he | h
      · exact Or.inr (he ▸ List.mem_cons_self _ _)
      · rcases ih h with h | h
        · exact Or.inl h
        · exact Or.inr (List.mem_cons_of_mem _ h)

theorem mem_removeKey {sm : List (Key × List Nat)} {k : Key}
    {kb' : Key × List Nat} (h : kb' ∈ removeKey sm k) : kb' ∈ sm := by
  induction sm with
  | nil => simp [removeKey] at h
  | cons p rest ih =>
    obtain ⟨k', b'⟩ := p
    by_cases hk : k' = k
    · simp only [removeKey, if_pos hk] at h
      exact List.mem_cons_of_mem _ (ih h)
    · simp only [removeKey, if_neg hk] at h
      rcases List.mem_cons.mp h with he | h
      · exact he ▸ List.mem_cons_self _ _
      · exact List.mem_cons_of_mem _ (ih h)

theorem removeKey_keys_sublist (sm : List (Key × List Nat)) (k : Key) :
    ((removeKey sm k).map Prod.fst).Sublist (sm.map Prod.fst) := by
  induction sm with
  | nil => exact List.Sublist.refl _
  | cons p rest ih =>
    obtain ⟨k', b'⟩ := p
    by_cases hk : k' = k
    · simp only [removeKey, if_pos hk, List.map_cons]
      exact List.Sublist.cons _ ih
    · simp only [removeKey, if_neg hk, List.map_cons]
      exact List.Sublist.cons₂ _ ih

theorem unsafeAddWatcher_spec {sm : List (Key × List Nat)} {k : Key} {w : Nat}
    {s' : List (Key × List Nat)} (hnd : (sm.map Prod.fst).Nodup)
    (h : unsafeAddWatcher sm k w = some s') :
    ((s'.map Prod.fst).Nodup) ∧
    (∀ kb' ∈ s', ∀ v ∈ kb'.2,
      (∃ kb ∈ sm, kb.1 = kb'.1 ∧ v ∈ kb.2) ∨ (v = w ∧ kb'.1 = k)) ∧
    ((∀ kb ∈ sm, kb.2.Nodup) → ∀ kb' ∈ s', kb'.2.Nodup) := by
  unfold unsafeAddWatcher at h
  cases hlb : lookupBucket sm k with
  | none =>
    simp only [hlb] at h
    have hs : s' = sm ++ [(k, [w])] := (Option.some.inj h).symm
    subst hs
    refine ⟨?_, ?_, ?_⟩
    · rw [List.map_append]
      rw [List.nodup_append]
      refine ⟨hnd, List.nodup_singleton _, ?_⟩
      intro a ha hb
      simp at hb
      subst hb
      exact lookupBucket_none_keys hlb ha
    · intro kb' hkb' v hv
      rcases List.mem_append.mp hkb' with hkb' | hkb'
      · exact Or.inl ⟨kb', hkb', rfl, hv⟩
      · simp at hkb'
        subst hkb'
        simp at hv
        exact Or.inr ⟨hv, rfl⟩
    · intro hb kb' hkb'
      rcases List.mem_append.mp hkb' with hkb' | hkb'
      · exact hb kb' hkb'
      · simp at hkb'
        subst hkb'
        exact List.nodup_singleton _
  | some v0 =>
    simp only [hlb] at h
    by_cases hw : w ∈ v0
    · rw [if_pos hw] at h
      exact absurd h (by simp)
    · rw [if_neg hw] at h
      have hs : s' = setBucket sm k (v0 ++ [w]) := (Option.some.inj h).symm
      subst hs
      have hv0 : (k, v0) ∈ sm := lookupBucket_mem hlb
      refine ⟨?_, ?_, ?_⟩
      · rw [setBucket_keys]
        exact hnd
      · intro kb' hkb' v hv
        rcases mem_setBucket hkb' with he | hkb'
        · subst he
          rcases List.mem_append.mp hv with hv | hv
          · exact Or.inl ⟨(k, v0), hv0, rfl, hv⟩
          · simp at hv
            exact Or.inr ⟨hv, rfl⟩
        · exact Or.inl ⟨kb', hkb', rfl, hv⟩
      · intro hb kb' hkb'
        rcases mem_setBucket hkb' with he | hkb'
        · subst he
          rw [List.nodup_append]
          exact ⟨hb _ hv0, List.nodup_singleton _,
            by simpa using fun hww => hw hww⟩
        · exact hb kb' hkb'

theorem unsafeAddWatcher_adds {sm : List (Key × List Nat)} {k : Key} {w : Nat}
    {s' : List (Key × List Nat)} (h : unsafeAddWatcher sm k w = some s') :
    ∃ b', (k, b') ∈ s' ∧ w ∈ b' := by
  unfold unsafeAddWatcher at h
  cases hlb : lookupBucket sm k with
  | none =>
    simp only [hlb] at h
    have hs : s' = sm ++ [(k, [w])] := (Option.some.inj h).symm
    subst hs
    exact ⟨[w], List.mem_append.mpr (Or.inr (List.mem_singleton.mpr rfl)),
      List.mem_singleton.mpr rfl⟩
  | some v0 =>
    simp only [hlb] at h
    by_cases hw : w ∈ v0
    · rw [if_pos hw] at h
      exact absurd h (by simp)
    · rw [if_neg hw] at h
      have hs : s' = setBucket sm k (v0 ++ [w]) := (Option.some.inj h).symm
      subst hs
      refine ⟨v0 ++ [w], ?_, List.mem_append.mpr (Or.inr (List.mem_singleton.mpr rfl))⟩
      clear h hw
      induction sm with
      | nil => simp [lookupBucket] at hlb
      | cons p rest ih =>
        obtain ⟨k', b'⟩ := p
        by_cases hk : k' = k
        · subst hk
          simp [setBucket]
        · simp only [lookupBucket, if_neg hk] at hlb
          simp only [setBucket, if_neg hk]
          exact List.mem_cons_of_mem _ (ih hlb)

theorem hGet_append (heap : List Watcher) (wa : Watcher) (v : Nat)
    (h : v < heap.length) : hGet (heap ++ [wa]) v = hGet heap v := by
  unfold hGet
  unfold List.getD
  rw [List.get?_append h]

theorem hGet_append_self (heap : List Watcher) (wa : Watcher) :
    hGet (heap ++ [wa]) heap.length = wa := by
  unfold hGet
  unfold List.getD
  rw [List.get?_concat_length]
  rfl

/-! ### Where fan-out keys come from -/

theorem mem_keys_addEvent {m : List (Nat × List Event)} {w w' : Nat} {ev : Event}
    (h : w' ∈ (addEvent m w ev).map Prod.fst) :
    w' ∈ m.map Prod.fst ∨ w' = w := by
  induction m with
  | nil =>
    simp [addEvent] at h
    exact Or.inr h
  | cons p rest ih =>
    obtain ⟨w'', es⟩ := p
    by_cases hw : w'' = w
    · simp only [addEvent, if_pos hw, List.map_cons] at h
      exact Or.inl h
    · simp only [addEvent, if_neg hw, List.map_cons] at h
      rcases List.mem_cons.mp h with he | h
      · exact Or.inl (he ▸ List.mem_cons_self _ _)
      · rcases ih h with h | h
        · exact Or.inl (List.mem_cons_of_mem _ h)
        · exact Or.inr h

theorem mem_keys_addBucketEvents {heap : List Watcher} {ev : Event} {klen : Nat}
    {b : List Nat} {m : List (Nat × List Event)} {w' : Nat}
    (h : w' ∈ (addBucketEvents heap ev klen b m).map Prod.fst) :
    w' ∈ m.map Prod.fst ∨ w' ∈ b := by
  induction b generalizing m with
  | nil => exact Or.inl h
  | cons u us ih =>
    rw [addBucketEvents_cons] at h
    rcases ih h with h | h
    · split at h
      · exact Or.inl h
      · rcases mem_keys_addEvent h with h | h
        · exact Or.inl h
        · exact Or.inr (h ▸ List.mem_cons_self _ _)
    · exact Or.inr (List.mem_cons_of_mem _ h)

theorem mem_keys_addPfxEvents {heap : List Watcher} {sm : List (Key × List Nat)}
    {ev : Event} {ks : List Key} {m : List (Nat × List Event)} {w' : Nat}
    (h : w' ∈ (addPfxEvents heap sm ev ks m).map Prod.fst) :
    w' ∈ m.map Prod.fst ∨ ∃ kb ∈ sm, w' ∈ kb.2 := by
  induction ks generalizing m with
  | nil => exact Or.inl h
  | cons k ks ih =>
    unfold addPfxEvents at h
    cases hlb : lookupBucket sm k with
    | none =>
      rw [hlb] at h
      exact ih h
    | some b =>
      rw [hlb] at h
      rcases ih h with h | h
      · rcases mem_keys_addBucketEvents h with h | h
        · exact Or.inl h
        · exact Or.inr ⟨(k, b), lookupBucket_mem hlb, h⟩
      · exact Or.inr h

theorem mem_keys_newWatcherToEventMap {heap : List Watcher}
    {sm : List (Key × List Nat)} {evs : List Event} {w' : Nat}
    (h : w' ∈ (newWatcherToEventMap heap sm evs).map Prod.fst) :
    ∃ kb ∈ sm, w' ∈ kb.2 := by
  unfold newWatcherToEventMap at h
  suffices hgen : ∀ m : List (Nat × List Event),
      w' ∈ (addEvents heap sm evs m).map Prod.fst →
      w' ∈ m.map Prod.fst ∨ ∃ kb ∈ sm, w' ∈ kb.2 by
    rcases hgen [] h with h | h
    · simp at h
    · exact h
  clear h
  induction evs with
  | nil => exact fun m h => Or.inl h
  | cons ev rest ih =>
    intro m h
    unfold addEvents at h
    rcases ih _ h with h | h
    · exact mem_keys_addPfxEvents h
    · exact Or.inr h

/-! ### The sync pass preserves well-formedness -/

theorem mem_addK2U_members {m : List (Key × List Nat)} {k : Key} {w : Nat}
    {kb' : Key × List Nat} (h : kb' ∈ addK2U m k w) :
    ∀ v ∈ kb'.2, (∃ kb ∈ m, v ∈ kb.2) ∨ v = w := by
  induction m with
  | nil =>
    simp [addK2U] at h
    intro v hv
    rw [h] at hv
    simp at hv
    exact Or.inr hv
  | cons p rest ih =>
    obtain ⟨k', b⟩ := p
    by_cases hk : k' = k
    · simp only [addK2U, if_pos hk] at h
      intro v hv
      rcases List.mem_cons.mp h with he | h
      · rw [he] at hv
        rcases List.mem_append.mp hv with hv | hv
        · exact Or.inl ⟨(k', b), List.mem_cons_self _ _, hv⟩
        · simp at hv
          exact Or.inr hv
      · exact Or.inl ⟨kb', List.mem_cons_of_mem _ h, hv⟩
    · simp only [addK2U, if_neg hk] at h
      intro v hv
      rcases List.mem_cons.mp h with he | h
      · exact Or.inl ⟨kb', he ▸ List.mem_cons_self _ _, hv⟩
      · rcases ih h v hv with ⟨kb, hkb, hvkb⟩ | hv
        · exact Or.inl ⟨kb, List.mem_cons_of_mem _ hkb, hvkb⟩
        · exact Or.inr hv

theorem syncPass1_light {heap : List Watcher} {curRev compRev : Int} :
    ∀ {l : List Nat} {minRev0 : Int} {k2u0 : List (Key × List Nat)}
      {pfxs0 : List Key} {kept : List Nat} {m : Int}
      {k2u : List (Key × List Nat)} {pfxs : List Key},
    syncPass1 heap curRev compRev l minRev0 k2u0 pfxs0 =
      some (kept, m, k2u, pfxs) →
    kept.Sublist l ∧
    (∀ kb ∈ k2u, ∀ v ∈ kb.2, (∃ kb0 ∈ k2u0, v ∈ kb0.2) ∨ v ∈ l) := by
  intro l
  induction l with
  | nil =>
    intro minRev0 k2u0 pfxs0 kept m k2u pfxs h
    unfold syncPass1 at h
    simp only [Option.some.injEq, Prod.mk.injEq] at h
    obtain ⟨h1, h2, h3, h4⟩ := h
    refine ⟨h1 ▸ List.Sublist.refl _, ?_⟩
    intro kb hkb v hv
    exact Or.inl ⟨kb, h3 ▸ hkb, hv⟩
  | cons u us ih =>
    intro minRev0 k2u0 pfxs0 kept m k2u pfxs h
    unfold syncPass1 at h
    by_cases hcur : (hGet heap u).cur > curRev
    · rw [if_pos hcur] at h
      exact absurd h (by simp)
    · rw [if_neg hcur] at h
      by_cases hcomp : (hGet heap u).cur < compRev
      · rw [if_pos hcomp] at h
        obtain ⟨ih1, ih2⟩ := ih h
        refine ⟨ih1.trans (List.sublist_cons_self u us), ?_⟩
        intro kb hkb v hv
        rcases ih2 kb hkb v hv with h | h
        · exact Or.inl h
        · exact Or.inr (List.mem_cons_of_mem _ h)
      · rw [if_neg hcomp] at h
        cases hrec : syncPass1 heap curRev compRev us
            (if minRev0 ≥ (hGet heap u).cur then (hGet heap u).cur else minRev0)
            (addK2U k2u0 (hGet heap u).key u)
            (if (hGet heap u).pfx then insertKey pfxs0 (hGet heap u).key else pfxs0)
            with
        | none =>
          simp only [hrec] at h
          exact absurd h (by simp)
        | some r =>
          obtain ⟨kept', m', k2u', pfxs'⟩ := r
          simp only [hrec] at h
          simp only [Option.some.injEq, Prod.mk.injEq] at h
          obtain ⟨h1, h2, h3, h4⟩ := h
          obtain ⟨ih1, ih2⟩ := ih hrec
          constructor
          · rw [← h1]
            exact List.Sublist.cons₂ u ih1
          · intro kb hkb v hv
            rcases ih2 kb (h3 ▸ hkb) v hv with ⟨kb0, hkb0, hvkb0⟩ | hv'
            · rcases mem_addK2U_members hkb0 v hvkb0 with ⟨kb1, hkb1, hvkb1⟩ | hvu
              · exact Or.inl ⟨kb1, hkb1, hvkb1⟩
              · exact Or.inr (hvu ▸ List.mem_cons_self _ _)
            · exact Or.inr (List.mem_cons_of_mem _ hv')

theorem syncPromote_WF {heap : List Watcher} {curRev : Int} {ok : Nat → Bool} :
    ∀ {weList : List (Nat × List Event)} {synced : List (Key × List Nat)}
      {unsynced : List Nat} {out : List (Nat × WatchResponse)}
      {s' : List (Key × List Nat)} {u' : List Nat}
      {sends' : List (Nat × WatchResponse)},
    (∀ p ∈ weList, p.1 < heap.length) →
    WFMap heap synced →
    unsynced.Nodup →
    (∀ v ∈ unsynced, v < heap.length) →
    (∀ v ∈ unsynced, ∀ kb ∈ synced, v ∉ kb.2) →
    syncPromote heap curRev ok weList synced unsynced out =
      some (s', u', sends') →
    WFMap heap s' ∧ u'.Nodup ∧ (∀ v ∈ u', v < heap.length) ∧
    (∀ v ∈ u', ∀ kb ∈ s', v ∉ kb.2) := by
  intro weList
  induction weList with
  | nil =>
    intro synced unsynced out s' u' sends' hlen hwfm hund hub hdisj h
    unfold syncPromote at h
    simp only [Option.some.injEq, Prod.mk.injEq] at h
    obtain ⟨h1, h2, h3⟩ := h
    exact ⟨h1 ▸ hwfm, h2 ▸ hund, h2 ▸ hub, fun v hv kb hkb => hdisj v (h2 ▸ hv) kb (h1 ▸ hkb)⟩
  | cons p rest ih =>
    obtain ⟨w, es⟩ := p
    intro synced unsynced out s' u' sends' hlen hwfm hund hub hdisj h
    have hrest : ∀ p ∈ rest, p.1 < heap.length :=
      fun p hp => hlen p (List.mem_cons_of_mem _ hp)
    have hwlen : w < heap.length := hlen (w, es) (List.mem_cons_self _ _)
    unfold syncPromote at h
    by_cases hok : ok w = true
    · rw [if_pos hok] at h
      cases huaw : unsafeAddWatcher synced (hGet heap w).key w with
      | none =>
        simp only [huaw] at h
        exact absurd h (by simp)
      | some s1 =>
        simp only [huaw] at h
        obtain ⟨hnd, hkeyed, hbnd, hblen⟩ := hwfm
        obtain ⟨g1, g2, g3⟩ := unsafeAddWatcher_spec hnd huaw
        have hwfm1 : WFMap heap s1 := by
          refine ⟨g1, ?_, g3 hbnd, ?_⟩
          · intro kb' hkb' v hv
            rcases g2 kb' hkb' v hv with ⟨kb, hkb, hk1, hvkb⟩ | ⟨rfl, hk⟩
            · rw [← hk1]
              exact hkeyed kb hkb v hvkb
            · rw [hk]
          · intro kb' hkb' v hv
            rcases g2 kb' hkb' v hv with ⟨kb, hkb, hk1, hvkb⟩ | ⟨rfl, hk⟩
            · exact hblen kb hkb v hvkb
            · exact hwlen
        refine ih hrest hwfm1 (hund.erase w)
          (fun v hv => hub v (List.mem_of_mem_erase hv)) ?_ h
        intro v hv kb' hkb' hvkb'
        have hvu : v ∈ unsynced := List.mem_of_mem_erase hv
        have hvw : v ≠ w := (List.Nodup.mem_erase_iff hund).mp hv |>.1
        rcases g2 kb' hkb' v hvkb' with ⟨kb, hkb, hk1, hvkb⟩ | ⟨he, hk⟩
        · exact hdisj v hvu kb hkb hvkb
        · exact hvw he
    · rw [if_neg hok] at h
      exact ih hrest hwfm hund hub hdisj h

theorem syncWatchers_watchers_eq {st : StoreState} {ok : Nat → Bool}
    {st' : StoreState} {sends : List (Nat × WatchResponse)}
    (h : syncWatchers st ok = some (st', sends)) :
    st'.watchers = st.watchers := by
  unfold syncWatchers at h
  by_cases hemp : st.unsynced = []
  · rw [if_pos hemp] at h
    simp only [Option.some.injEq, Prod.mk.injEq] at h
    rw [← h.1]
  · rw [if_neg hemp] at h
    cases hp1 : syncPass1 st.watchers st.currentRev st.compactRev st.unsynced
        maxI64 [] [] with
    | none =>
      simp only [hp1] at h
      exact absurd h (by simp)
    | some r =>
      obtain ⟨kept, minRev, k2u, pfxs⟩ := r
      simp only [hp1] at h
      cases hpr : syncPromote st.watchers st.currentRev ok
          (newWatcherToEventMap st.watchers k2u
            (syncEvents st.backend minRev st.currentRev k2u pfxs))
          st.synced kept [] with
      | none =>
        simp only [hpr] at h
        exact absurd h (by simp)
      | some r2 =>
        obtain ⟨s', u', sends'⟩ := r2
        simp only [hpr] at h
        simp only [Option.some.injEq, Prod.mk.injEq] at h
        rw [← h.1]

theorem WF_syncWatchers {st : StoreState} {ok : Nat → Bool} {st' : StoreState}
    {sends : List (Nat × WatchResponse)} (hwf : WF st)
    (h : syncWatchers st ok = some (st', sends)) : WF st' := by
  unfold syncWatchers at h
  by_cases hemp : st.unsynced = []
  · rw [if_pos hemp] at h
    simp only [Option.some.injEq, Prod.mk.injEq] at h
    exact h.1 ▸ hwf
  · rw [if_neg hemp] at h
    cases hp1 : syncPass1 st.watchers st.currentRev st.compactRev st.unsynced
        maxI64 [] [] with
    | none =>
      simp only [hp1] at h
      exact absurd h (by simp)
    | some r =>
      obtain ⟨kept, minRev, k2u, pfxs⟩ := r
      simp only [hp1] at h
      cases hpr : syncPromote st.watchers st.currentRev ok
          (newWatcherToEventMap st.watchers k2u
            (syncEvents st.backend minRev st.currentRev k2u pfxs))
          st.synced kept [] with
      | none =>
        simp only [hpr] at h
        exact absurd h (by simp)
      | some r2 =>
        obtain ⟨s', u', sends'⟩ := r2
        simp only [hpr] at h
        simp only [Option.some.injEq, Prod.mk.injEq] at h
        obtain ⟨hst, hsends⟩ := h
        obtain ⟨hp1a, hp1b⟩ := syncPass1_light hp1
        obtain ⟨hwfm, hund, hub, hdisj⟩ := hwf
        have hwl : ∀ p ∈ newWatcherToEventMap st.watchers k2u
            (syncEvents st.backend minRev st.currentRev k2u pfxs),
            p.1 < st.watchers.length := by
          intro p hp
          have hmem : p.1 ∈ (newWatcherToEventMap st.watchers k2u
              (syncEvents st.backend minRev st.currentRev k2u pfxs)).map Prod.fst :=
            List.mem_map.mpr ⟨p, hp, rfl⟩
          obtain ⟨kb, hkb, hv⟩ := mem_keys_newWatcherToEventMap hmem
          rcases hp1b kb hkb p.1 hv with ⟨kb0, hkb0, -⟩ | hv2
          · exact absurd hkb0 (List.not_mem_nil _)
          · exact hub p.1 hv2
        have hres := syncPromote_WF hwl hwfm (hp1a.nodup hund)
          (fun v hv => hub v (hp1a.subset hv))
          (fun v hv => hdisj v (hp1a.subset hv)) hpr
        rw [← hst]
        exact ⟨hres.1, hres.2.1, hres.2.2.1, hres.2.2.2⟩

theorem WF_watchOp {st : StoreState} {key : Key} {p : Bool} {startRev : Int}
    {id ch : Nat} {st' : StoreState} {w : Nat} (hwf : WF st)
    (h : watchOp st key p startRev id ch = some (st', w)) : WF st' := by
  obtain ⟨⟨hnd, hkeyed, hbnd, hblen⟩, hund, hulen, hdisj⟩ := hwf
  unfold watchOp at h
  by_cases hs : startRev = 0
  · rw [if_pos hs] at h
    cases huaw : unsafeAddWatcher st.synced key st.watchers.length with
    | none =>
      simp only [huaw] at h
      exact absurd h (by simp)
    | some s1 =>
      simp only [huaw, Option.some.injEq, Prod.mk.injEq] at h
      obtain ⟨hst, hw⟩ := h
      obtain ⟨g1, g2, g3⟩ := unsafeAddWatcher_spec hnd huaw
      rw [← hst]
      refine ⟨⟨g1, ?_, g3 hbnd, ?_⟩, hund, ?_, ?_⟩
      · intro kb' hkb' v hv
        rcases g2 kb' hkb' v hv with ⟨kb, hkb, hk1, hvkb⟩ | ⟨rfl, hk⟩
        · show (hGet (st.watchers ++ [(⟨key, p, startRev, id, ch⟩ : Watcher)]) v).key = kb'.1
          rw [hGet_append st.watchers _ v (hblen kb hkb v hvkb), ← hk1]
          exact hkeyed kb hkb v hvkb
        · show (hGet (st.watchers ++ [(⟨key, p, startRev, id, ch⟩ : Watcher)])
            st.watchers.length).key = kb'.1
          rw [hGet_append_self, hk]
      · intro kb' hkb' v hv
        show v < (st.watchers ++ [(⟨key, p, startRev, id, ch⟩ : Watcher)]).length
        rw [List.length_append, List.length_singleton]
        rcases g2 kb' hkb' v hv with ⟨kb, hkb, hk1, hvkb⟩ | ⟨rfl, hk⟩
        · exact Nat.lt_succ_of_lt (hblen kb hkb v hvkb)
        · exact Nat.lt_succ_self _
      · intro v hv
        show v < (st.watchers ++ [(⟨key, p, startRev, id, ch⟩ : Watcher)]).length
        rw [List.length_append, List.length_singleton]
        exact Nat.lt_succ_of_lt (hulen v hv)
      · intro v hv kb' hkb' hvkb'
        rcases g2 kb' hkb' v hvkb' with ⟨kb, hkb, hk1, hvkb⟩ | ⟨he, hk⟩
        · exact hdisj v hv kb hkb hvkb
        · exact Nat.lt_irrefl _ (he ▸ hulen v hv)
  · rw [if_neg hs] at h
    simp only [Option.some.injEq, Prod.mk.injEq] at h
    obtain ⟨hst, hw⟩ := h
    rw [← hst]
    refine ⟨⟨hnd, ?_, hbnd, ?_⟩, insertW_nodup hund, ?_, ?_⟩
    · intro kb' hkb' v hv
      show (hGet (st.watchers ++ [(⟨key, p, startRev, id, ch⟩ : Watcher)]) v).key = kb'.1
      rw [hGet_append st.watchers _ v (hblen kb' hkb' v hv)]
      exact hkeyed kb' hkb' v hv
    · intro kb' hkb' v hv
      show v < (st.watchers ++ [(⟨key, p, startRev, id, ch⟩ : Watcher)]).length
      rw [List.length_append, List.length_singleton]
      exact Nat.lt_succ_of_lt (hblen kb' hkb' v hv)
    · intro v hv
      show v < (st.watchers ++ [(⟨key, p, startRev, id, ch⟩ : Watcher)]).length
      rw [List.length_append, List.length_singleton]
      rcases mem_insertW.mp hv with hv | rfl
      · exact Nat.lt_succ_of_lt (hulen v hv)
      · exact Nat.lt_succ_self _
    · intro v hv kb' hkb' hvkb'
      rcases mem_insertW.mp hv with hv | rfl
      · exact hdisj v hv kb' hkb' hvkb'
      · exact Nat.lt_irrefl _ (hblen kb' hkb' _ hvkb')

theorem cancelOp_unsynced {st : StoreState} {w : Nat} (k : Key)
    (hu : w ∈ st.unsynced) :
    cancelOp st w k = { st with unsynced := st.unsynced.erase w } := by
  unfold cancelOp
  rw [if_pos hu]

theorem cancelOp_none {st : StoreState} {w : Nat} {k : Key}
    (hu : w ∉ st.unsynced) (hlb : lookupBucket st.synced k = none) :
    cancelOp st w k = st := by
  unfold cancelOp
  rw [if_neg hu, hlb]

theorem cancelOp_found {st : StoreState} {w : Nat} {k : Key} {v0 : List Nat}
    (hu : w ∉ st.unsynced) (hlb : lookupBucket st.synced k = some v0) :
    cancelOp st w k =
      if w ∈ v0 then
        if v0.erase w = [] then { st with synced := removeKey st.synced k }
        else { st with synced := setBucket st.synced k (v0.erase w) }
      else st := by
  unfold cancelOp
  rw [if_neg hu, hlb]

theorem WF_cancelOp (st : StoreState) (w : Nat) (k : Key) (hwf : WF st) :
    WF (cancelOp st w k) := by
  obtain ⟨⟨hnd, hkeyed, hbnd, hblen⟩, hund, hulen, hdisj⟩ := hwf
  by_cases hu : w ∈ st.unsynced
  · rw [cancelOp_unsynced k hu]
    refine ⟨⟨hnd, hkeyed, hbnd, hblen⟩, hund.erase w,
      fun v hv => hulen v (List.mem_of_mem_erase hv),
      fun v hv kb hkb => hdisj v (List.mem_of_mem_erase hv) kb hkb⟩
  · cases hlb : lookupBucket st.synced k with
    | none =>
      rw [cancelOp_none hu hlb]
      exact ⟨⟨hnd, hkeyed, hbnd, hblen⟩, hund, hulen, hdisj⟩
    | some v0 =>
      rw [cancelOp_found hu hlb]
      by_cases hw : w ∈ v0
      · rw [if_pos hw]
        have hv0 : (k, v0) ∈ st.synced := lookupBucket_mem hlb
        by_cases he : v0.erase w = []
        · rw [if_pos he]
          refine ⟨⟨?_, ?_, ?_, ?_⟩, hund, hulen, ?_⟩
          · exact (removeKey_keys_sublist st.synced k).nodup hnd
          · exact fun kb' hkb' => hkeyed kb' (mem_removeKey hkb')
          · exact fun kb' hkb' => hbnd kb' (mem_removeKey hkb')
          · exact fun kb' hkb' => hblen kb' (mem_removeKey hkb')
          · exact fun v hv kb' hkb' => hdisj v hv kb' (mem_removeKey hkb')
        · rw [if_neg he]
          refine ⟨⟨?_, ?_, ?_, ?_⟩, hund, hulen, ?_⟩
          · rw [setBucket_keys]
            exact hnd
          · intro kb' hkb' v hv
            rcases mem_setBucket hkb' with rfl | hkb'
            · exact hkeyed (k, v0) hv0 v (List.mem_of_mem_erase hv)
            · exact hkeyed kb' hkb' v hv
          · intro kb' hkb'
            rcases mem_setBucket hkb' with rfl | hkb'
            · exact (hbnd (k, v0) hv0).erase w
            · exact hbnd kb' hkb'
          · intro kb' hkb' v hv
            rcases mem_setBucket hkb' with rfl | hkb'
            · exact hblen (k, v0) hv0 v (List.mem_of_mem_erase hv)
            · exact hblen kb' hkb' v hv
          · intro v hv kb' hkb' hvkb'
            rcases mem_setBucket hkb' with rfl | hkb'
            · exact hdisj v hv (k, v0) hv0 (List.mem_of_mem_erase hvkb')
            · exact hdisj v hv kb' hkb' hvkb'
      · rw [if_neg hw]
        exact ⟨⟨hnd, hkeyed, hbnd, hblen⟩, hund, hulen, hdisj⟩

theorem WF_execMutation (st : StoreState) (m : Mutation) (ok : Nat → Bool)
    (hwf : WF st) : WF (execMutation st m ok).st := by
  cases m with
  | putM c rev =>
    show WF (notify _ _ _ _).1
    exact WF_notify _ _ _ _ hwf
  | delM cs rev =>
    cases cs with
    | nil => exact hwf
    | cons c cs =>
      show WF (notify _ _ _ _).1
      exact WF_notify _ _ _ _ hwf
  | txnM cs rev =>
    cases cs with
    | nil => exact hwf
    | cons c cs =>
      show WF (notify _ _ _ _).1
      exact WF_notify _ _ _ _ hwf

theorem WF_initState : WF initState := by
  refine ⟨⟨List.nodup_nil, ?_, ?_, ?_⟩, List.nodup_nil, ?_, ?_⟩ <;>
    intro v hv <;> simp [initState] at hv

theorem WF_step {st st' : StoreState} (hwf : WF st) (h : Step st st') : WF st' := by
  cases h
  case watchS key p startRev id ch w hw => exact WF_watchOp hwf hw
  case cancelS w k => exact WF_cancelOp st w k hwf
  case mutS m ok hrev => exact WF_execMutation st m ok hwf
  case syncS ok sends hs => exact WF_syncWatchers hwf hs

theorem WF_reachable {st : StoreState} (h : Reachable st) : WF st := by
  unfold Reachable at h
  induction h with
  | refl => exact WF_initState
  | tail hr hstep ih => exact WF_step ih hstep

/-! ### Claim theorems: reachability -/

/-- C3: in every state reachable by any sequence of watch, cancel,
notify (via the mutating facade) and syncWatchers, a watcher is never in
the unsynced set and a synced bucket at the same time. -/
theorem reachable_partition_disjoint (st : StoreState) (h : Reachable st) :
    ∀ w ∈ st.unsynced, ∀ kb ∈ st.synced, w ∉ kb.2 :=
  (WF_reachable h).2.2.2

/-- Two-watcher reachable state: watcher 0 synced on "a", watcher 1
unsynced on "b" from revision 5. -/
def c3st : StoreState :=
  ⟨[⟨[97], false, 0, 1, 0⟩, ⟨[98], false, 5, 2, 0⟩], [1], [([97], [0])], 1, 0, []⟩

/-- Witness for `reachable_partition_disjoint` on a concrete two-watcher
reachable state: the unsynced watcher 1 is absent from the synced bucket
of "a". -/
theorem reachable_partition_disjoint_witness :
    1 ∈ c3st.unsynced ∧ ((([97] : Key), [0]) : Key × List Nat) ∈ c3st.synced ∧
    (1 : Nat) ∉ ((([97] : Key), [0]) : Key × List Nat).2 :=
  ⟨by decide, by decide,
   reachable_partition_disjoint c3st
    (Relation.ReflTransGen.head
      (Step.watchS initState c1st [97] false 0 1 0 0 (by decide))
      (Relation.ReflTransGen.single
        (Step.watchS c1st c3st [98] false 5 2 0 1 (by decide))))
    1 (by decide) ([97], [0]) (by decide)⟩

/-- C4 counterexample: after registering a from-now watcher (startRev 0)
at store revision 1 — a reachable state — the watcher sits in `synced`
with `cur = 0 ≤ currentRev`, so synced membership does not imply
`cur > currentRev`. -/
theorem synced_cur_gt_currentRev_counterexample :
    Reachable c1st ∧ (([97] : Key), [0]) ∈ c1st.synced ∧
    (hGet c1st.watchers 0).cur ≤ c1st.currentRev :=
  ⟨Relation.ReflTransGen.single
    (Step.watchS initState c1st [97] false 0 1 0 0 (by decide)),
   by decide, by decide⟩

/-- C4 amended: the code does not maintain `cur` for synced watchers.
A watcher registered with startRev = 0 is stored in `synced` with
`cur = 0` regardless of the store's current revision, and a sync pass
never modifies any watcher record (in particular promotion leaves `cur`
unchanged), so membership in `synced` does not imply
`cur > currentRev`. -/
theorem c4_amended :
    (∀ st : StoreState, ∀ (key : Key) (p : Bool) (id ch : Nat),
      ∀ st' : StoreState, ∀ w : Nat,
      watchOp st key p 0 id ch = some (st', w) →
      (hGet st'.watchers w).cur = 0 ∧ ∃ b, (key, b) ∈ st'.synced ∧ w ∈ b) ∧
    (∀ st : StoreState, ∀ ok : Nat → Bool, ∀ st' : StoreState,
      ∀ sends : List (Nat × WatchResponse),
      syncWatchers st ok = some (st', sends) → st'.watchers = st.watchers) := by
  constructor
  · intro st key p id ch st' w h
    unfold watchOp at h
    rw [if_pos rfl] at h
    cases huaw : unsafeAddWatcher st.synced key st.watchers.length with
    | none =>
      simp only [huaw] at h
      exact absurd h (by simp)
    | some s1 =>
      simp only [huaw, Option.some.injEq, Prod.mk.injEq] at h
      obtain ⟨hst, hw⟩ := h
      constructor
      · rw [← hst, ← hw]
        show (hGet (st.watchers ++ [(⟨key, p, 0, id, ch⟩ : Watcher)])
          st.watchers.length).cur = 0
        rw [hGet_append_self]
      · obtain ⟨b, hb, hwb⟩ := unsafeAddWatcher_adds huaw
        exact ⟨b, by rw [← hst]; exact hb, hw ▸ hwb⟩
  · intro st ok st' sends h
    exact syncWatchers_watchers_eq h

/-- Witness for `c4_amended`: registering watcher 0 on "a" from now at
revision 1, and an empty sync pass. -/
theorem c4_amended_witness :
    (hGet c1st.watchers 0).cur = 0 ∧ initState.watchers = initState.watchers := by
  constructor
  · exact (c4_amended.1 initState [97] false 1 0 c1st 0 (by decide)).1
  · exact c4_amended.2 initState (fun _ => true) initState [] (by decide)

/-- The state after registering a watcher at startRev = currentRev + 1 = 2
on a fresh store: it lands in unsynced with cur = 2. -/
def c6st : StoreState := ⟨[⟨[107], false, 2, 1, 0⟩], [0], [], 1, 0, []⟩

/-- C6: registering a watcher with startRev = currentRev + 1 is NOT safe
in this code: the watcher goes to unsynced with `cur = currentRev + 1`,
the state is reachable, and the next sync pass (before any write) hits
the `w.cur > curRev` panic — `syncWatchers` aborts the process. -/
theorem watch_next_rev_sync_panics :
    watchOp initState [107] false 2 1 0 = some (c6st, 0) ∧
    Reachable c6st ∧
    syncWatchers c6st (fun _ => true) = none :=
  ⟨by decide,
   Relation.ReflTransGen.single
     (Step.watchS initState c6st [107] false 2 1 0 0 (by decide)),
   by decide⟩

/-- A store with compaction revision 10 and an unsynced watcher lagging
at cur = 5 (below the compaction floor). -/
def c7st : StoreState := ⟨[⟨[107], false, 5, 1, 0⟩], [0], [], 12, 10, []⟩

/-- C7: the sync pass removes a watcher with `cur < compactRev` from
unsynced but sends it nothing — no "compacted" signal exists in this
code (the TODO in `syncWatchers` documents the omission): afterwards the
watcher is in neither partition and the send list is empty. -/
theorem compacted_watcher_silently_dropped :
    syncWatchers c7st (fun _ => true) =
      some (⟨[⟨[107], false, 5, 1, 0⟩], [], [], 12, 10, []⟩, []) := by
  decide

/-- The state after a Put of "a" at revision 2 whose notification to the
sole synced watcher on "a" fails (channel full): the watcher is demoted
and its bucket is left behind empty. -/
def c5bad : StoreState := (execMutation c1st c1m (fun _ => false)).st

/-- C5 counterexample: the notifier does not prune emptied buckets.  In
the reachable state after a Put whose send fails, the demoted watcher's
key "a" is still present in the synced map with an empty bucket, so
presence of a key does not imply the bucket is non-empty. -/
theorem bucket_pruning_counterexample :
    Reachable c5bad ∧ ((([97] : Key), ([] : List Nat)) : Key × List Nat) ∈ c5bad.synced :=
  ⟨Relation.ReflTransGen.head
    (Step.watchS initState c1st [97] false 0 1 0 0 (by decide))
    (Relation.ReflTransGen.single (Step.mutS c1st c1m (fun _ => false) (by decide))),
   by decide⟩

theorem notifyBuckets_keys (we : List (Nat × List Event)) (rev curRev : Int)
    (ok : Nat → Bool) (sm : List (Key × List Nat)) (ns : NotifyAcc) :
    (notifyBuckets we rev curRev ok sm ns).1.map Prod.fst = sm.map Prod.fst := by
  induction sm generalizing ns with
  | nil => simp [notifyBuckets]
  | cons p rest ih =>
    obtain ⟨k, b⟩ := p
    rw [notifyBuckets_cons_fst]
    simp only [List.map_cons]
    rw [ih]

/-- C5 amended: only the cancel path prunes.  Cancellation preserves the
no-empty-buckets property, but a notify call keeps every key of the
synced map — including keys whose bucket it empties by demotion — so the
claimed "present iff non-empty" invariant fails at the notifier. -/
theorem c5_amended :
    (∀ st : StoreState, ∀ w : Nat, ∀ k : Key,
      (∀ kb ∈ st.synced, kb.2 ≠ []) →
      ∀ kb ∈ (cancelOp st w k).synced, kb.2 ≠ []) ∧
    (∀ st : StoreState, ∀ rev : Int, ∀ evs : List Event, ∀ ok : Nat → Bool,
      ((notify st rev evs ok).1.synced).map Prod.fst =
        st.synced.map Prod.fst) := by
  constructor
  · intro st w k hne kb hkb
    by_cases hu : w ∈ st.unsynced
    · rw [cancelOp_unsynced k hu] at hkb
      exact hne kb hkb
    · cases hlb : lookupBucket st.synced k with
      | none =>
        rw [cancelOp_none hu hlb] at hkb
        exact hne kb hkb
      | some v0 =>
        rw [cancelOp_found hu hlb] at hkb
        by_cases hw : w ∈ v0
        · rw [if_pos hw] at hkb
          by_cases he : v0.erase w = []
          · rw [if_pos he] at hkb
            exact hne kb (mem_removeKey hkb)
          · rw [if_neg he] at hkb
            rcases mem_setBucket hkb with hkb' | hkb'
            · rw [hkb']
              exact he
            · exact hne kb hkb'
        · rw [if_neg hw] at hkb
          exact hne kb hkb
  · intro st rev evs ok
    rw [notify_eq]
    exact notifyBuckets_keys _ _ _ _ _ _

/-- Witness for `c5_amended`: cancelling the synced watcher of `c1st`
prunes its bucket, and the failing notify of `c5bad` keeps key "a". -/
theorem c5_amended_witness :
    ((([97] : Key), ([] : List Nat)) : Key × List Nat) ∉ (cancelOp c1st 0 [97]).synced ∧
    ((notify c1st 2 [⟨.PUT, ⟨[97], some [49], 2⟩⟩] (fun _ => false)).1.synced).map
      Prod.fst = [[97]] := by
  constructor
  · intro hmem
    exact c5_amended.1 c1st 0 [97] (by decide) ([97], []) hmem rfl
  · rw [c5_amended.2 c1st 2 [⟨.PUT, ⟨[97], some [49], 2⟩⟩] (fun _ => false)]
    decide

theorem lookupBucket_removeKey_self (sm : List (Key × List Nat)) (k : Key) :
    lookupBucket (removeKey sm k) k = none := by
  induction sm with
  | nil => rfl
  | cons p rest ih =>
    obtain ⟨k', b⟩ := p
    by_cases hk : k' = k
    · simp only [removeKey, if_pos hk]
      exact ih
    · simp only [removeKey, if_neg hk, lookupBucket]
      exact ih

theorem lookupBucket_setBucket_self {sm : List (Key × List Nat)} {k : Key}
    {v : List Nat} (b : List Nat) (h : lookupBucket sm k = some v) :
    lookupBucket (setBucket sm k b) k = some b := by
  induction sm with
  | nil => simp [lookupBucket] at h
  | cons p rest ih =>
    obtain ⟨k', b'⟩ := p
    by_cases hk : k' = k
    · simp only [setBucket, if_pos hk, lookupBucket]
    · simp only [lookupBucket, if_neg hk] at h
      simp only [setBucket, if_neg hk, lookupBucket]
      exact ih h

/-- C9: the cancel closure is idempotent on a well-formed registry: a
second call with the same watcher and key changes nothing, because the
first call leaves the watcher in neither the unsynced set nor the bucket
of its key. -/
theorem cancel_idempotent (st : StoreState) (w : Nat) (k : Key) (hwf : WF st) :
    cancelOp (cancelOp st w k) w k = cancelOp st w k ∧
    w ∉ (cancelOp st w k).unsynced ∧
    ∀ b, lookupBucket (cancelOp st w k).synced k = some b → w ∉ b := by
  obtain ⟨⟨hnd, hkeyed, hbnd, hblen⟩, hund, hulen, hdisj⟩ := hwf
  by_cases hu : w ∈ st.unsynced
  · rw [cancelOp_unsynced k hu]
    have hu1 : w ∉ st.unsynced.erase w := hund.not_mem_erase
    refine ⟨?_, hu1, ?_⟩
    · cases hlb : lookupBucket st.synced k with
      | none => exact cancelOp_none hu1 hlb
      | some v0 =>
        have hwv : w ∉ v0 := hdisj w hu (k, v0) (lookupBucket_mem hlb)
        rw [@cancelOp_found { st with unsynced := st.unsynced.erase w } w k v0
          hu1 hlb, if_neg hwv]
    · intro b hb
      exact hdisj w hu (k, b) (lookupBucket_mem hb)
  · cases hlb : lookupBucket st.synced k with
    | none =>
      rw [cancelOp_none hu hlb]
      refine ⟨cancelOp_none hu hlb, hu, ?_⟩
      intro b hb
      exact Option.noConfusion (hlb.symm.trans hb)
    | some v0 =>
      have hmem := lookupBucket_mem hlb
      by_cases hw : w ∈ v0
      · by_cases he : v0.erase w = []
        · rw [cancelOp_found hu hlb, if_pos hw, if_pos he]
          refine ⟨cancelOp_none hu (lookupBucket_removeKey_self st.synced k),
            hu, ?_⟩
          intro b hb
          exact Option.noConfusion
            ((lookupBucket_removeKey_self st.synced k).symm.trans hb)
        · rw [cancelOp_found hu hlb, if_pos hw, if_neg he]
          have hwe : w ∉ v0.erase w := (hbnd (k, v0) hmem).not_mem_erase
          have hlb1 : lookupBucket (setBucket st.synced k (v0.erase w)) k =
              some (v0.erase w) := lookupBucket_setBucket_self _ hlb
          refine ⟨?_, hu, ?_⟩
          · rw [@cancelOp_found
              { st with synced := setBucket st.synced k (v0.erase w) } w k
              (v0.erase w) hu hlb1, if_neg hwe]
          · intro b hb
            rw [← Option.some.inj (hlb1.symm.trans hb)]
            exact hwe
      · rw [cancelOp_found hu hlb, if_neg hw]
        refine ⟨?_, hu, ?_⟩
        · rw [cancelOp_found hu hlb, if_neg hw]
        · intro b hb
          rw [← Option.some.inj (hlb.symm.trans hb)]
          exact hw

/-- Witness for `cancel_idempotent`: cancelling the single synced watcher
of `c1st` twice equals cancelling it once. -/
theorem cancel_idempotent_witness :
    cancelOp (cancelOp c1st 0 [97]) 0 [97] = cancelOp c1st 0 [97] ∧
    0 ∉ (cancelOp c1st 0 [97]).unsynced :=
  ⟨(cancel_idempotent c1st 0 [97] (by decide)).1,
   (cancel_idempotent c1st 0 [97] (by decide)).2.1⟩

/-! ### Provenance: every event stored in the fan-out map comes from the
event batch it was built from -/

theorem lookupEvents_mem {m : List (Nat × List Event)} {w : Nat}
    {es : List Event} (h : lookupEvents m w = some es) : (w, es) ∈ m := by
  induction m with
  | nil => simp [lookupEvents] at h
  | cons p rest ih =>
    obtain ⟨w', es'⟩ := p
    by_cases hw : w' = w
    · subst hw
      have h2 : some es' = some es := by
        have h3 : lookupEvents ((w', es') :: rest) w' = some es' := by
          simp [lookupEvents]
        rw [← h3, h]
      rw [← Option.some.inj h2]
      exact List.mem_cons_self _ _
    · simp only [lookupEvents, if_neg hw] at h
      exact List.mem_cons_of_mem _ (ih h)

theorem addEvent_events_pred (P : Event → Prop) (w : Nat) (ev : Event)
    (hev : P ev) :
    ∀ m : List (Nat × List Event), (∀ q ∈ m, ∀ e ∈ q.2, P e) →
      ∀ p ∈ addEvent m w ev, ∀ e ∈ p.2, P e := by
  intro m
  induction m with
  | nil =>
    intro _ p hp e he
    simp only [addEvent, List.mem_singleton] at hp
    subst hp
    rw [List.mem_singleton.mp he]
    exact hev
  | cons q rest ih =>
    obtain ⟨w', es⟩ := q
    intro hm p hp e he
    by_cases hw : w' = w
    · simp only [addEvent, if_pos hw] at hp
      rcases List.mem_cons.mp hp with hp | hp
      · subst hp
        rcases List.mem_append.mp he with he | he
        · exact hm (w', es) (List.mem_cons_self _ _) e he
        · rw [List.mem_singleton.mp he]
          exact hev
      · exact hm p (List.mem_cons_of_mem _ hp) e he
    · simp only [addEvent, if_neg hw] at hp
      rcases List.mem_cons.mp hp with hp | hp
      · subst hp
        exact hm (w', es) (List.mem_cons_self _ _) e he
      · exact ih (fun q hq => hm q (List.mem_cons_of_mem _ hq)) p hp e he

theorem addBucketEvents_events_pred (P : Event → Prop) (heap : List Watcher)
    (ev : Event) (klen : Nat) (hev : P ev) :
    ∀ b : List Nat, ∀ m : List (Nat × List Event),
      (∀ q ∈ m, ∀ e ∈ q.2, P e) →
      ∀ p ∈ addBucketEvents heap ev klen b m, ∀ e ∈ p.2, P e := by
  intro b
  induction b with
  | nil =>
    intro m hm p hp
    simp only [addBucketEvents] at hp
    exact hm p hp
  | cons w ws ih =>
    intro m hm p hp
    simp only [addBucketEvents] at hp
    have hm' : ∀ q ∈ (if !(hGet heap w).pfx && klen ≠ ev.kv.key.length then m
        else addEvent m w ev), ∀ e ∈ q.2, P e := by
      split
      · exact hm
      · exact addEvent_events_pred P w ev hev m hm
    exact ih _ hm' p hp

theorem addPfxEvents_events_pred (P : Event → Prop) (heap : List Watcher)
    (sm : List (Key × List Nat)) (ev : Event) (hev : P ev) :
    ∀ ks : List Key, ∀ m : List (Nat × List Event),
      (∀ q ∈ m, ∀ e ∈ q.2, P e) →
      ∀ p ∈ addPfxEvents heap sm ev ks m, ∀ e ∈ p.2, P e := by
  intro ks
  induction ks with
  | nil =>
    intro m hm p hp
    simp only [addPfxEvents] at hp
    exact hm p hp
  | cons k ks ih =>
    intro m hm p hp
    cases hlb : lookupBucket sm k with
    | none =>
      simp only [addPfxEvents, hlb] at hp
      exact ih m hm p hp
    | some b =>
      simp only [addPfxEvents, hlb] at hp
      exact ih _ (addBucketEvents_events_pred P heap ev k.length hev b m hm) p hp

theorem addEvents_events_pred (P : Event → Prop) (heap : List Watcher)
    (sm : List (Key × List Nat)) :
    ∀ l : List Event, (∀ ev ∈ l, P ev) →
      ∀ m : List (Nat × List Event), (∀ q ∈ m, ∀ e ∈ q.2, P e) →
      ∀ p ∈ addEvents heap sm l m, ∀ e ∈ p.2, P e := by
  intro l
  induction l with
  | nil =>
    intro _ m hm p hp
    simp only [addEvents] at hp
    exact hm p hp
  | cons ev rest ih =>
    intro hl m hm p hp
    simp only [addEvents] at hp
    exact ih (fun e he => hl e (List.mem_cons_of_mem _ he)) _
      (addPfxEvents_events_pred P heap sm ev (hl ev (List.mem_cons_self _ _))
        (pfxList ev.kv.key) m hm) p hp

theorem newWatcherToEventMap_events_pred (P : Event → Prop)
    (heap : List Watcher) (sm : List (Key × List Nat)) (evs : List Event)
    (hl : ∀ ev ∈ evs, P ev) :
    ∀ p ∈ newWatcherToEventMap heap sm evs, ∀ e ∈ p.2, P e :=
  addEvents_events_pred P heap sm evs hl []
    (fun q hq => absurd hq (List.not_mem_nil q))

/-! ### Every response the notifier sends is stamped at `curRev` and
carries only events of the fan-out map -/

theorem notifyBucket_sends_pred (Q : WatchResponse → Prop)
    (we : List (Nat × List Event)) (rev curRev : Int) (ok : Nat → Bool)
    (hQ : ∀ (i w : Nat) (es : List Event),
      lookupEvents we w = some es → Q ⟨i, es, curRev⟩) :
    ∀ b : List Nat, ∀ ns : NotifyAcc, (∀ p ∈ ns.sends, Q p.2) →
      ∀ p ∈ (notifyBucket we rev curRev ok b ns).2.sends, Q p.2 := by
  intro b
  induction b with
  | nil =>
    intro ns hns p hp
    exact hns p hp
  | cons u us ih =>
    intro ns hns p hp
    cases hlk : lookupEvents we u with
    | none =>
      rw [notifyBucket_cons_none_snd hlk] at hp
      exact ih ns hns p hp
    | some es =>
      cases hok : ok u with
      | true =>
        rw [notifyBucket_cons_ok_snd hlk hok] at hp
        refine ih _ ?_ p hp
        intro q hq
        rcases List.mem_append.mp hq with hq | hq
        · exact hns q hq
        · rw [List.mem_singleton.mp hq]
          exact hQ (hGet ns.heap u).id u es hlk
      | false =>
        rw [notifyBucket_cons_fail hlk hok] at hp
        refine ih _ ?_ p hp
        intro q hq
        exact hns q hq

theorem notifyBuckets_sends_pred (Q : WatchResponse → Prop)
    (we : List (Nat × List Event)) (rev curRev : Int) (ok : Nat → Bool)
    (hQ : ∀ (i w : Nat) (es : List Event),
      lookupEvents we w = some es → Q ⟨i, es, curRev⟩) :
    ∀ sm : List (Key × List Nat), ∀ ns : NotifyAcc,
      (∀ p ∈ ns.sends, Q p.2) →
      ∀ p ∈ (notifyBuckets we rev curRev ok sm ns).2.sends, Q p.2 := by
  intro sm
  induction sm with
  | nil =>
    intro ns hns p hp
    exact hns p hp
  | cons kb rest ih =>
    obtain ⟨k, b⟩ := kb
    intro ns hns p hp
    rw [notifyBuckets_cons_snd] at hp
    exact ih _ (notifyBucket_sends_pred Q we rev curRev ok hQ b ns hns) p hp

theorem notify_sends_pred (Q : WatchResponse → Prop) (st : StoreState)
    (rev : Int) (evs : List Event) (ok : Nat → Bool)
    (hQ : ∀ (i w : Nat) (es : List Event),
      lookupEvents (newWatcherToEventMap st.watchers st.synced evs) w =
        some es → Q ⟨i, es, st.currentRev⟩) :
    ∀ p ∈ (notify st rev evs ok).2, Q p.2 := by
  rw [notify_eq]
  exact notifyBuckets_sends_pred Q _ rev st.currentRev ok hQ st.synced
    ⟨st.watchers, st.unsynced, []⟩ (fun p hp => absurd hp (List.not_mem_nil p))

/-- C8: a transaction committing at revision `r` with a non-empty change
set invokes the notifier exactly once, with the complete batch (DELETE
for nil values, PUT otherwise); every WatchResponse it sends is stamped
`Revision = r` and carries only events of that batch, so (the inner store
stamping each change at `r`) every delivered event has `ModRevision = r`.
A transaction with an empty change set notifies nothing and leaves the
state untouched. -/
theorem txn_batch_notification (st : StoreState) (cs : List KeyValue) (r : Int)
    (ok : Nat → Bool) :
    (cs = [] → execMutation st (.txnM cs r) ok = ⟨st, [], []⟩) ∧
    (cs ≠ [] →
      (execMutation st (.txnM cs r) ok).handleCalls =
        [(r, Mutation.events (.txnM cs r))] ∧
      (∀ p ∈ (execMutation st (.txnM cs r) ok).sends,
        p.2.revision = r ∧
        ∀ e ∈ p.2.events, e ∈ Mutation.events (.txnM cs r)) ∧
      ((∀ c ∈ cs, c.modRev = r) →
        ∀ p ∈ (execMutation st (.txnM cs r) ok).sends,
          ∀ e ∈ p.2.events, e.kv.modRev = r)) := by
  constructor
  · intro h
    subst h
    rfl
  · intro hne
    have hev : Mutation.events (.txnM cs r) ≠ [] := by
      cases cs with
      | nil => exact absurd rfl hne
      | cons c cs => simp [Mutation.events]
    have hsnd : ∀ p ∈ (execMutation st (.txnM cs r) ok).sends,
        p.2.revision = r ∧
        ∀ e ∈ p.2.events, e ∈ Mutation.events (.txnM cs r) := by
      rw [execMutation_eq st (.txnM cs r) ok hev]
      refine notify_sends_pred
        (fun rsp => rsp.revision = r ∧
          ∀ e ∈ rsp.events, e ∈ Mutation.events (.txnM cs r))
        (stCommit st (.txnM cs r)) (Mutation.rev (.txnM cs r))
        (Mutation.events (.txnM cs r)) ok ?_
      intro i w es hlk
      refine ⟨rfl, ?_⟩
      intro e he
      exact newWatcherToEventMap_events_pred (· ∈ Mutation.events (.txnM cs r))
        (stCommit st (.txnM cs r)).watchers (stCommit st (.txnM cs r)).synced
        (Mutation.events (.txnM cs r)) (fun _ h => h) (w, es)
        (lookupEvents_mem hlk) e he
    refine ⟨?_, hsnd, ?_⟩
    · rw [execMutation_eq st (.txnM cs r) ok hev]
      rfl
    · intro hmod p hp e he
      have hbatch := (hsnd p hp).2 e he
      simp only [Mutation.events, List.mem_map] at hbatch
      obtain ⟨c, hc, hce⟩ := hbatch
      rw [← hce]
      exact hmod c hc

/-- Witness for `txn_batch_notification`: an empty transaction does not
notify; a one-change transaction at revision 2 calls the notifier once
with the full batch. -/
theorem txn_batch_notification_witness :
    execMutation c1st (.txnM [] 2) (fun _ => true) = ⟨c1st, [], []⟩ ∧
    (execMutation c1st (.txnM [⟨[97], some [50], 2⟩] 2)
        (fun _ => true)).handleCalls =
      [(2, Mutation.events (.txnM [⟨[97], some [50], 2⟩] 2))] :=
  ⟨(txn_batch_notification c1st [] 2 (fun _ => true)).1 rfl,
   ((txn_batch_notification c1st [⟨[97], some [50], 2⟩] 2
      (fun _ => true)).2 (by decide)).1⟩

end EtcdWatch
